import Mathlib

/-!
# Vanaheimr: pass factory and basic block

A shallow embedding of `PassFactory::createPass`
(`transforms/implementation/PassFactory.cpp`) and of the `BasicBlock`
container (`ir/implementation/BasicBlock.cpp`), with the properties of the
specification proved about them.

Objects created with `new` live in a store; a pointer is a natural number
(type `Nat` throughout),
`0` is the null pointer and the object at index `k` of a store has address
`k + 1`.  Allocation always takes a fresh address at the end of the store
(memory is unbounded and addresses are never reused).
-/

namespace vanaheimr

namespace transforms

/-- The `StringVector` of `PassFactory.h`: an ordered sequence of option strings. -/
abbrev StringVector := List String

/-- The seven concrete pass classes that `createPass` can instantiate. -/
inductive PassKind where
  | ConvertToSSAPass
  | ConvertFromSSAPass
  | EnforceArchaeopteryxABIPass
  | ListInstructionSchedulerPass
  | ChaitinBriggsRegisterAllocatorPass
  | GenericSpillCodePass
  | TranslationTableInstructionSelectionPass
  deriving DecidableEq, Repr

/-- A pass object.  The constructors and the `configure` bodies of the pass
classes are not part of the sources at hand; an object is represented by its
dynamic class and by the option vectors its `configure` has received, oldest
first. -/
structure Pass where
  kind : PassKind
  configured : List StringVector
  deriving DecidableEq, Repr

/-- The store of pass objects allocated so far. -/
abbrev PassStore := List Pass

/-- A fresh object of class `k`, as `new K()` produces it: never configured. -/
def PassStore.alloc (s : PassStore) (k : PassKind) : Nat × PassStore :=
  (s.length + 1, s ++ [{ kind := k, configured := [] }])

/-- The object a pointer designates, if any. -/
def PassStore.read (s : PassStore) (p : Nat) : Option Pass :=
  match p with
  | 0 => none
  | k + 1 => s.get? k

/-- The call `pass->configure(options)`: the object records the vector. -/
def PassStore.configure (s : PassStore) (p : Nat) (options : StringVector) : PassStore :=
  match p with
  | 0 => s
  | k + 1 => s.modify (fun o => { o with configured := o.configured ++ [options] }) k

/-- One `if(cond) { pass = new K(); }` statement of `createPass`, acting on
the local variable `pass` and the store. -/
def assignNewIf (cond : Bool) (k : PassKind) (st : Nat × PassStore) : Nat × PassStore :=
  if cond then st.2.alloc k else st

/-- The function `PassFactory::createPass(name, options)`: seven independent
`if` statements, each overwriting `pass` with a new object, followed by the
guarded `configure` call.  The result is the returned pointer and the store
after the call. -/
def createPass (name : String) (options : StringVector) (s : PassStore) : Nat × PassStore :=
  let st0 : Nat × PassStore := (0, s)
  let st1 := assignNewIf (name == "ConvertToSSA" || name == "ConvertToSSAPass")
    PassKind.ConvertToSSAPass st0
  let st2 := assignNewIf (name == "ConvertFromSSA" || name == "ConvertFromSSAPass")
    PassKind.ConvertFromSSAPass st1
  let st3 := assignNewIf (name == "EnforceArchaeopteryxABIPass")
    PassKind.EnforceArchaeopteryxABIPass st2
  let st4 := assignNewIf (name == "ListInstructionSchedulerPass" || name == "list")
    PassKind.ListInstructionSchedulerPass st3
  let st5 := assignNewIf (name == "chaitin-briggs" || name == "ChaitinBriggsRegisterAllocatorPass")
    PassKind.ChaitinBriggsRegisterAllocatorPass st4
  let st6 := assignNewIf (name == "generic-spiller" || name == "GenericSpillCodePass")
    PassKind.GenericSpillCodePass st5
  let st7 := assignNewIf (name == "translation-table" ||
      name == "TranslationTableInstructionSelectionPass")
    PassKind.TranslationTableInstructionSelectionPass st6
  if st7.1 ≠ 0 then (st7.1, st7.2.configure st7.1 options) else (st7.1, st7.2)

/-- The string literals `createPass` compares `name` against, in source order. -/
def recognizedNames : List String :=
  ["ConvertToSSA", "ConvertToSSAPass", "ConvertFromSSA", "ConvertFromSSAPass",
   "EnforceArchaeopteryxABIPass", "ListInstructionSchedulerPass", "list",
   "chaitin-briggs", "ChaitinBriggsRegisterAllocatorPass", "generic-spiller",
   "GenericSpillCodePass", "translation-table", "TranslationTableInstructionSelectionPass"]

/-- The alias table of the specification: each name with the class it stands for. -/
def documentedTable : List (String × PassKind) :=
  [("ConvertToSSA", PassKind.ConvertToSSAPass),
   ("ConvertToSSAPass", PassKind.ConvertToSSAPass),
   ("ConvertFromSSA", PassKind.ConvertFromSSAPass),
   ("ConvertFromSSAPass", PassKind.ConvertFromSSAPass),
   ("EnforceArchaeopteryxABIPass", PassKind.EnforceArchaeopteryxABIPass),
   ("list", PassKind.ListInstructionSchedulerPass),
   ("ListInstructionSchedulerPass", PassKind.ListInstructionSchedulerPass),
   ("chaitin-briggs", PassKind.ChaitinBriggsRegisterAllocatorPass),
   ("ChaitinBriggsRegisterAllocatorPass", PassKind.ChaitinBriggsRegisterAllocatorPass),
   ("generic-spiller", PassKind.GenericSpillCodePass),
   ("GenericSpillCodePass", PassKind.GenericSpillCodePass),
   ("translation-table", PassKind.TranslationTableInstructionSelectionPass),
   ("TranslationTableInstructionSelectionPass",
     PassKind.TranslationTableInstructionSelectionPass)]

/-- A pipeline builder's calls: `createPass` on each name in order, each call
starting from the store the previous one left.  The result lists the returned
pointers position by position. -/
def createPasses (names : List String) (options : StringVector) (s : PassStore) :
    List Nat × PassStore :=
  match names with
  | [] => ([], s)
  | n :: rest =>
    let r := createPass n options s
    let rs := createPasses rest options r.2
    (r.1 :: rs.1, rs.2)

/-- The conditions of the seven `if` statements of `createPass`, in source order. -/
def nameTests (name : String) : List Bool :=
  [name == "ConvertToSSA" || name == "ConvertToSSAPass",
   name == "ConvertFromSSA" || name == "ConvertFromSSAPass",
   name == "EnforceArchaeopteryxABIPass",
   name == "ListInstructionSchedulerPass" || name == "list",
   name == "chaitin-briggs" || name == "ChaitinBriggsRegisterAllocatorPass",
   name == "generic-spiller" || name == "GenericSpillCodePass",
   name == "translation-table" || name == "TranslationTableInstructionSelectionPass"]

/-- The classes the seven `if` statements instantiate, in source order. -/
def testKinds : List PassKind :=
  [PassKind.ConvertToSSAPass, PassKind.ConvertFromSSAPass,
   PassKind.EnforceArchaeopteryxABIPass, PassKind.ListInstructionSchedulerPass,
   PassKind.ChaitinBriggsRegisterAllocatorPass, PassKind.GenericSpillCodePass,
   PassKind.TranslationTableInstructionSelectionPass]

/-- The seven `if` statements run in order on the local `pass` and the store. -/
def runTests (tests : List (Bool × PassKind)) (st : Nat × PassStore) : Nat × PassStore :=
  tests.foldl (fun acc t => assignNewIf t.1 t.2 acc) st

/-- The class of the object a call returned, read from the store it left. -/
def kindOf (r : Nat × PassStore) : Option PassKind :=
  (r.2.read r.1).map Pass.kind

end transforms

namespace ir

/-- The enumeration `Instruction::Opcode` of `Instruction.h`. -/
inductive Opcode where
  | Add | And | Ashr | Atom | Bar | Bitcast | Bra | Call | Fdiv | Fmul | Fpext
  | Fptosi | Fptoui | Fptrunc | Frem | Launch | Ld | Lshr | Membar | Mul | Or
  | Ret | Setp | Sext | Sdiv | Shl | Sitofp | Srem | St | Sub | Trunc | Udiv
  | Uitofp | Urem | Xor | Zext
  | Phi | Psi
  | InvalidOpcode
  deriving DecidableEq, Repr

/-- An operand, taken by value: a deep copy of an operand is an equal value. -/
abbrev Operand := Nat

/-- The state of one instruction object: the opcode and the operand fields of
`class Instruction`.  The identifier and the back-reference to the containing
block are left out: no operation of the block reads them. -/
structure Instruction where
  opcode : Opcode
  guard : Option Operand
  reads : List Operand
  writes : List Operand
  deriving DecidableEq, Repr

/-- Modelled from the spec: the body of `Instruction::isBranch`, declared in
`Instruction.h`, is not in the sources.  The specification classifies by
opcode and counts as control transfer a branch, a call (a branch that saves
the return address) and a return. -/
def Instruction.isBranch (i : Instruction) : Bool :=
  i.opcode == Opcode.Bra || i.opcode == Opcode.Call || i.opcode == Opcode.Ret

/-- A cell of the instruction heap: a live object, or one that `delete` has destroyed. -/
inductive Cell where
  | live (i : Instruction)
  | destroyed
  deriving DecidableEq, Repr

/-- The heap of instruction objects; the cell at index `k` has address `k + 1`. -/
abbrev Heap := List Cell

/-- The ways in which a call can leave defined behaviour. -/
inductive Undefined where
  /-- The calls `front()` or `back()` on an empty list. -/
  | emptyAccess
  /-- A member call or `delete` through a pointer to no live instruction. -/
  | invalidPointer
  /-- An iterator or reference that designates nothing in the container. -/
  | invalidPosition
  deriving DecidableEq, Repr

/-- The live instruction a pointer designates, if any. -/
def Heap.read (h : Heap) (p : Nat) : Option Instruction :=
  match p with
  | 0 => none
  | k + 1 =>
    match h.get? k with
    | some (Cell.live i) => some i
    | _ => none

/-- A new object with state `i`, at a fresh address. -/
def Heap.alloc (h : Heap) (i : Instruction) : Nat × Heap :=
  (h.length + 1, h ++ [Cell.live i])

/-- The statement `delete p`: a no-op on null, destroys a live object, and is
undefined on anything else (a second delete, a wild pointer). -/
def Heap.delete (h : Heap) (p : Nat) : Except Undefined Heap :=
  if p = 0 then Except.ok h
  else
    match h.read p with
    | some _ => Except.ok (h.set (p - 1) Cell.destroyed)
    | none => Except.error Undefined.invalidPointer

/-- Modelled from the spec: the bodies of the virtual `clone()` are not in the
sources.  The specification makes `clone()` a deep, independent copy, equal
to the original in opcode and fields: a new object with the same state.
Calling it through a pointer to no live instruction is undefined. -/
def clone (h : Heap) (p : Nat) : Except Undefined (Nat × Heap) :=
  match h.read p with
  | some i => Except.ok (h.alloc i)
  | none => Except.error Undefined.invalidPointer

/-- The member call `p->isBranch()`. -/
def isBranchAt (h : Heap) (p : Nat) : Except Undefined Bool :=
  match h.read p with
  | some i => Except.ok i.isBranch
  | none => Except.error Undefined.invalidPointer

/-- The cell a clone of `p` occupies: a live copy of the state `p` has in `h`. -/
def Heap.cloneCell (h : Heap) (p : Nat) : Cell :=
  match h.read p with
  | some i => Cell.live i
  | none => Cell.destroyed

/-- The base-class subobject `Variable` of a block; the block operations only copy it. -/
structure Variable where
  name : String
  deriving DecidableEq, Repr

/-- The data members of `class BasicBlock`: the `Variable` base, the owning
function, the identifier and the list of instruction pointers. -/
structure BasicBlock where
  base : Variable
  _function : Nat
  _id : Nat
  _instructions : List Nat
  deriving DecidableEq, Repr

namespace BasicBlock

/-- The member `empty()`. -/
def empty (b : BasicBlock) : Bool := b._instructions.isEmpty

/-- The member `size()`. -/
def size (b : BasicBlock) : Nat := b._instructions.length

/-- The member `id()`. -/
def id (b : BasicBlock) : Nat := b._id

/-- The member `function()`. -/
def function (b : BasicBlock) : Nat := b._function

/-- The member `front()`: unchecked access, undefined on an empty list. -/
def front (b : BasicBlock) : Except Undefined Nat :=
  match b._instructions.head? with
  | some p => Except.ok p
  | none => Except.error Undefined.emptyAccess

/-- The member `back()`: unchecked access, undefined on an empty list. -/
def back (b : BasicBlock) : Except Undefined Nat :=
  match b._instructions.getLast? with
  | some p => Except.ok p
  | none => Except.error Undefined.emptyAccess

/-- The assignment `back() = q` through the reference `back()` returns. -/
def setBack (b : BasicBlock) (q : Nat) : Except Undefined BasicBlock :=
  match b._instructions.getLast? with
  | some _ => Except.ok { b with _instructions := b._instructions.dropLast ++ [q] }
  | none => Except.error Undefined.emptyAccess

/-- The member `push_back(i)`. -/
def push_back (b : BasicBlock) (i : Nat) : BasicBlock :=
  { b with _instructions := b._instructions ++ [i] }

/-- The member `push_front(i)`. -/
def push_front (b : BasicBlock) (i : Nat) : BasicBlock :=
  { b with _instructions := i :: b._instructions }

/-- The member `insert(position, i)`.  An iterator is the index it points at,
`end()` being `size()`; the list inserts before `position` and returns the
iterator of the new element.  A position past `end()` is undefined. -/
def insert (b : BasicBlock) (position : Nat) (i : Nat) : Except Undefined (BasicBlock × Nat) :=
  if position ≤ b._instructions.length then
    Except.ok ({ b with _instructions :=
      b._instructions.take position ++ i :: b._instructions.drop position }, position)
  else Except.error Undefined.invalidPosition

/-- The member `setFunction(f)`. -/
def setFunction (b : BasicBlock) (f : Nat) : BasicBlock :=
  { b with _function := f }

/-- The loop `for(auto instruction : *this) delete instruction;`. -/
def deleteAll (h : Heap) : List Nat → Except Undefined Heap
  | [] => Except.ok h
  | p :: ps =>
    match h.delete p with
    | Except.ok h1 => deleteAll h1 ps
    | Except.error e => Except.error e

/-- The member `clear()`: deletes every instruction of the list; the list
itself is not touched. -/
def clear (h : Heap) (b : BasicBlock) : Except Undefined (Heap × BasicBlock) :=
  match deleteAll h b._instructions with
  | Except.ok h1 => Except.ok (h1, b)
  | Except.error e => Except.error e

/-- The loop `for(auto instruction : bb) push_back(instruction->clone());`
over the instructions `ps` of `bb`, pushing onto `b`. -/
def cloneInto (h : Heap) (b : BasicBlock) : List Nat → Except Undefined (Heap × BasicBlock)
  | [] => Except.ok (h, b)
  | p :: ps =>
    match clone h p with
    | Except.ok (q, h1) => cloneInto h1 (b.push_back q) ps
    | Except.error e => Except.error e

/-- The copy constructor `BasicBlock(const BasicBlock& bb)`. -/
def copyConstruct (h : Heap) (bb : BasicBlock) : Except Undefined (Heap × BasicBlock) :=
  cloneInto h { base := bb.base, _function := bb.function, _id := bb.id, _instructions := [] }
    bb._instructions

/-- The copy assignment `operator=`.  Blocks live in a store and `this` and
`bb` are their addresses there, so that `this == &bb` can be tested. -/
def assign (h : Heap) (blocks : List BasicBlock) (this bb : Nat) :
    Except Undefined (Heap × List BasicBlock) :=
  if this = bb then Except.ok (h, blocks)
  else
    match blocks.get? this, blocks.get? bb with
    | some d, some s =>
      match clear h d with
      | Except.ok (h1, d1) =>
        let d2 : BasicBlock := { d1 with base := s.base, _id := s.id, _function := s.function }
        match cloneInto h1 d2 s._instructions with
        | Except.ok (h2, d3) => Except.ok (h2, blocks.set this d3)
        | Except.error e => Except.error e
      | Except.error e => Except.error e
    | _, _ => Except.error Undefined.invalidPosition

/-- The member `terminator()`. -/
def terminator (h : Heap) (b : BasicBlock) : Except Undefined Nat :=
  if b.empty then Except.ok 0
  else
    match b.back with
    | Except.ok p =>
      match isBranchAt h p with
      | Except.ok true => b.back
      | Except.ok false => Except.ok 0
      | Except.error e => Except.error e
    | Except.error e => Except.error e

/-- The member `terminator() const`. -/
def terminatorConst (h : Heap) (b : BasicBlock) : Except Undefined Nat :=
  if b.empty then Except.ok 0
  else
    match b.back with
    | Except.ok p =>
      match isBranchAt h p with
      | Except.ok true => b.back
      | Except.ok false => Except.ok 0
      | Except.error e => Except.error e
    | Except.error e => Except.error e

/-- The member `setTerminator(i)`. -/
def setTerminator (h : Heap) (b : BasicBlock) (i : Nat) :
    Except Undefined (Heap × BasicBlock) :=
  match terminator h b with
  | Except.ok t =>
    if t ≠ 0 then
      match b.back with
      | Except.ok p =>
        match h.delete p with
        | Except.ok h1 =>
          match clone h1 i with
          | Except.ok (q, h2) =>
            match b.setBack q with
            | Except.ok b1 => Except.ok (h2, b1)
            | Except.error e => Except.error e
          | Except.error e => Except.error e
        | Except.error e => Except.error e
      | Except.error e => Except.error e
    else Except.ok (h, b.push_back i)
  | Except.error e => Except.error e

end BasicBlock

/-- A mutating call on a block: `push_back(i)` or `setTerminator(i)`. -/
inductive Mutation where
  | push_back (i : Nat)
  | setTerminator (i : Nat)
  deriving DecidableEq, Repr

/-- One mutating call on a block and the heap. -/
def step (st : Heap × BasicBlock) (c : Mutation) : Except Undefined (Heap × BasicBlock) :=
  match c with
  | Mutation.push_back i => Except.ok (st.1, st.2.push_back i)
  | Mutation.setTerminator i => st.2.setTerminator st.1 i

/-- A finite sequence of mutating calls, in order. -/
def run (st : Heap × BasicBlock) : List Mutation → Except Undefined (Heap × BasicBlock)
  | [] => Except.ok st
  | c :: cs =>
    match step st c with
    | Except.ok st1 => run st1 cs
    | Except.error e => Except.error e

/-- The terminator invariant: every position of the block that holds a
control-transfer instruction is the last position (so there is at most one). -/
def TerminatorInvariant (h : Heap) (b : BasicBlock) : Prop :=
  ∀ k p o, b._instructions.get? k = some p → h.read p = some o →
    o.isBranch = true → k + 1 = b.size

/-- Every instruction before the last position is live and is not a control transfer. -/
def NonLastAreNotBranches (h : Heap) (b : BasicBlock) : Prop :=
  ∀ k p, k + 1 < b.size → b._instructions.get? k = some p →
    ∃ o, h.read p = some o ∧ o.isBranch = false

/-- Every `push_back` of the sequence is made while `terminator()` is null. -/
def pushBackWithoutTerminator (st : Heap × BasicBlock) : List Mutation → Prop
  | [] => True
  | c :: cs =>
    (match c with
      | Mutation.push_back _ => BasicBlock.terminator st.1 st.2 = Except.ok 0
      | Mutation.setTerminator _ => True) ∧
    (match step st c with
      | Except.ok st1 => pushBackWithoutTerminator st1 cs
      | Except.error _ => True)

/-- Every element of the block is a live instruction. -/
def AllLive (h : Heap) (b : BasicBlock) : Prop :=
  ∀ p ∈ b._instructions, ∃ o, h.read p = some o

/-- Every call of the sequence is passed an instruction that is live when the
call is made, and no `setTerminator` is passed the terminator the block has
when the call is made. -/
def argumentsLiveAndNotTerminator (st : Heap × BasicBlock) : List Mutation → Prop
  | [] => True
  | c :: cs =>
    (match c with
      | Mutation.push_back i => ∃ o, st.1.read i = some o
      | Mutation.setTerminator i =>
        (∃ o, st.1.read i = some o) ∧ BasicBlock.terminator st.1 st.2 ≠ Except.ok i) ∧
    (match step st c with
      | Except.ok st1 => argumentsLiveAndNotTerminator st1 cs
      | Except.error _ => True)

namespace BasicBlock

/-- The destructor `~BasicBlock()`: it calls `clear()`; the heap is what remains. -/
def destruct (h : Heap) (b : BasicBlock) : Except Undefined Heap :=
  match clear h b with
  | Except.ok (h1, _) => Except.ok h1
  | Except.error e => Except.error e

end BasicBlock

namespace Membar

/-- The enumeration `Membar::Level` of `Instruction.h`. -/
inductive Level where
  | Thread
  | Warp
  | Cta
  | Kernel
  | InvalidLevel
  deriving DecidableEq, Repr

/-- The conversion `(uint32_t)z` of an integer: its residue modulo `2^32`. -/
def uint32_cast (z : Int) : Nat := (z % 2 ^ 32).toNat

/-- The value of each enumerator, as the header writes it. -/
def Level.value : Level → Nat
  | Level.Thread => 1
  | Level.Warp => 2
  | Level.Cta => 3
  | Level.Kernel => uint32_cast (-1)
  | Level.InvalidLevel => 0

end Membar

/-! Sample objects, used to evaluate the operations on concrete inputs. -/

/-- An `Add` instruction. -/
def sampleAdd : Instruction :=
  { opcode := Opcode.Add, guard := none, reads := [1, 2], writes := [3] }

/-- A guarded `Bra` instruction. -/
def sampleBra : Instruction :=
  { opcode := Opcode.Bra, guard := some 0, reads := [4], writes := [] }

/-- A `Ld` instruction. -/
def sampleLd : Instruction :=
  { opcode := Opcode.Ld, guard := none, reads := [5], writes := [6] }

/-- A heap of three live instructions, at addresses 1, 2 and 3. -/
def sampleHeap : Heap := [Cell.live sampleAdd, Cell.live sampleBra, Cell.live sampleLd]

/-- A block holding the `Add` and then the `Bra` of `sampleHeap`. -/
def sampleBlock : BasicBlock :=
  { base := { name := "entry" }, _function := 9, _id := 4, _instructions := [1, 2] }

/-- A block holding only the `Ld` of `sampleHeap`. -/
def sampleSource : BasicBlock :=
  { base := { name := "exit" }, _function := 9, _id := 5, _instructions := [3] }

/-- A block without instructions. -/
def sampleEmpty : BasicBlock :=
  { base := { name := "fresh" }, _function := 9, _id := 6, _instructions := [] }

end ir

end vanaheimr

/-! ## The pass factory -/

namespace vanaheimr

namespace transforms

theorem PassStore.configure_fresh (s : PassStore) (k : PassKind) (options : StringVector) :
    PassStore.configure (s ++ [{ kind := k, configured := [] }]) (s.length + 1) options
      = s ++ [{ kind := k, configured := [options] }] := by
  simp [PassStore.configure, List.modify_eq_set_get?]

theorem PassStore.read_fresh (s : PassStore) (o : Pass) :
    PassStore.read (s ++ [o]) (s.length + 1) = some o := by
  simp [PassStore.read]

/-- A documented name makes exactly one test of `createPass` succeed: the
call allocates one object of the documented class and configures it once. -/
theorem createPass_of_documented (name : String) (k : PassKind) (options : StringVector)
    (s : PassStore) (h : (name, k) ∈ documentedTable) :
    createPass name options s
      = (s.length + 1, s ++ [{ kind := k, configured := [options] }]) := by
  simp only [documentedTable, List.mem_cons, Prod.mk.injEq, List.mem_singleton,
    List.not_mem_nil, or_false] at h
  rcases h with h | h | h | h | h | h | h | h | h | h | h | h | h <;>
    obtain ⟨rfl, rfl⟩ := h <;>
    simp [createPass, assignNewIf, PassStore.alloc, PassStore.configure_fresh]

theorem documented_of_recognized (name : String) (h : name ∈ recognizedNames) :
    ∃ k, (name, k) ∈ documentedTable := by
  simp only [recognizedNames, List.mem_cons, List.mem_singleton, List.not_mem_nil,
    or_false] at h
  rcases h with h | h | h | h | h | h | h | h | h | h | h | h | h <;>
    subst h <;> simp [documentedTable]

theorem createPass_of_unrecognized (name : String) (options : StringVector) (s : PassStore)
    (h : name ∉ recognizedNames) : createPass name options s = (0, s) := by
  simp only [recognizedNames, List.mem_cons, List.mem_singleton, List.not_mem_nil,
    or_false, not_or] at h
  obtain ⟨h1, h2, h3, h4, h5, h6, h7, h8, h9, h10, h11, h12, h13⟩ := h
  simp [createPass, assignNewIf, h1, h2, h3, h4, h5, h6, h7, h8, h9, h10, h11, h12, h13]

theorem createPasses_append (a b : List String) (options : StringVector) (s : PassStore) :
    (createPasses (a ++ b) options s).1
      = (createPasses a options s).1 ++ (createPasses b options (createPasses a options s).2).1 := by
  induction a generalizing s with
  | nil => simp [createPasses]
  | cons n rest ih => simp [createPasses, ih]

theorem createPasses_length (a : List String) (options : StringVector) (s : PassStore) :
    (createPasses a options s).1.length = a.length := by
  induction a generalizing s with
  | nil => simp [createPasses]
  | cons n rest ih => simp [createPasses, ih]

theorem createPasses_ne_null (a : List String) (options : StringVector) (s : PassStore)
    (ha : ∀ n ∈ a, n ∈ recognizedNames) : ∀ p ∈ (createPasses a options s).1, p ≠ 0 := by
  induction a generalizing s with
  | nil => simp [createPasses]
  | cons n rest ih =>
    intro p hp
    simp only [createPasses, List.mem_cons] at hp
    rcases hp with hp | hp
    · obtain ⟨k, hk⟩ := documented_of_recognized n (ha n (List.mem_cons_self n rest))
      rw [hp, createPass_of_documented n k options s hk]
      simp
    · exact ih _ (fun m hm => ha m (List.mem_cons_of_mem n hm)) p hp

/-- C1: for every name of the documented alias table, whatever the options
and the objects allocated before, `createPass` returns a non-null pointer to
an object of the documented class; an alias and its full name stand in the
table with the same class, so they yield the same class. -/
theorem createPass_documented_kind (name : String) (k : PassKind) (options : StringVector)
    (s : PassStore) (h : (name, k) ∈ documentedTable) :
    (createPass name options s).1 ≠ 0 ∧ kindOf (createPass name options s) = some k := by
  rw [createPass_of_documented name k options s h]
  simp [kindOf, PassStore.read_fresh]

theorem createPass_documented_kind_witness :
    ("chaitin-briggs", PassKind.ChaitinBriggsRegisterAllocatorPass) ∈ documentedTable ∧
    ((createPass "chaitin-briggs" ["-r", "8"] []).1 ≠ 0 ∧
      kindOf (createPass "chaitin-briggs" ["-r", "8"] [])
        = some PassKind.ChaitinBriggsRegisterAllocatorPass) :=
  ⟨by decide, createPass_documented_kind "chaitin-briggs"
    PassKind.ChaitinBriggsRegisterAllocatorPass ["-r", "8"] [] (by decide)⟩

/-- C2: there are thirteen recognized names; for a name that is none of them
(exact match) `createPass` returns null and leaves the store as it was, so no
object is constructed and none is configured; it returns null only for such
names; and in a list of names an unrecognized name yields null at its own
position while the recognized names before it yield the non-null pointers
they yield without it. -/
theorem createPass_null_iff_unrecognized (name : String) (options : StringVector)
    (s : PassStore) (before after : List String) :
    recognizedNames.length = 13 ∧
    (name ∉ recognizedNames → createPass name options s = (0, s)) ∧
    ((createPass name options s).1 = 0 → name ∉ recognizedNames) ∧
    (name ∉ recognizedNames → (∀ n ∈ before, n ∈ recognizedNames) →
      (createPasses (before ++ name :: after) options s).1.get? before.length = some 0 ∧
      (createPasses (before ++ name :: after) options s).1.take before.length
        = (createPasses before options s).1 ∧
      ∀ p ∈ (createPasses before options s).1, p ≠ 0) := by
  refine ⟨rfl, createPass_of_unrecognized name options s, ?_, ?_⟩
  · intro h0 hmem
    obtain ⟨k, hk⟩ := documented_of_recognized name hmem
    rw [createPass_of_documented name k options s hk] at h0
    simp at h0
  · intro hname hbefore
    have hlen := createPasses_length before options s
    refine ⟨?_, ?_, createPasses_ne_null before options s hbefore⟩
    · rw [createPasses_append, List.get?_eq_getElem?, List.getElem?_append_right (by omega)]
      simp [hlen, createPasses, createPass_of_unrecognized name options _ hname]
    · rw [createPasses_append, ← hlen, List.take_left]

theorem createPass_null_iff_unrecognized_witness :
    "Chaitin-Briggs" ∉ recognizedNames ∧ (∀ n ∈ ["list", "generic-spiller"], n ∈ recognizedNames) ∧
    createPass "Chaitin-Briggs" ["x"] [] = (0, []) ∧
    (createPasses (["list", "generic-spiller"] ++ "Chaitin-Briggs" :: ["ConvertToSSA"]) ["x"] []).1.get?
        ["list", "generic-spiller"].length = some 0 ∧
    (∀ p ∈ (createPasses ["list", "generic-spiller"] ["x"] []).1, p ≠ 0) :=
  have hn : "Chaitin-Briggs" ∉ recognizedNames := by decide
  have hb : ∀ n ∈ ["list", "generic-spiller"], n ∈ recognizedNames := by decide
  have ht := createPass_null_iff_unrecognized "Chaitin-Briggs" ["x"] []
    ["list", "generic-spiller"] ["ConvertToSSA"]
  ⟨hn, hb, ht.2.1 hn, (ht.2.2.2 hn hb).1, (ht.2.2.2 hn hb).2.2⟩

/-- C3: for every recognized name and every options vector, the object
`createPass` returns was created by this call and has received exactly one
`configure` call, carrying exactly the caller's vector; the objects that were
in the store before are untouched. -/
theorem createPass_configured_once (name : String) (options : StringVector) (s : PassStore)
    (h : name ∈ recognizedNames) :
    ∃ o : Pass, (createPass name options s).2.read (createPass name options s).1 = some o ∧
      o.configured = [options] ∧ s.read (createPass name options s).1 = none ∧
      (createPass name options s).2 = s ++ [o] := by
  obtain ⟨k, hk⟩ := documented_of_recognized name h
  refine ⟨{ kind := k, configured := [options] }, ?_⟩
  rw [createPass_of_documented name k options s hk]
  simp [PassStore.read_fresh, PassStore.read]

theorem createPass_configured_once_witness :
    "translation-table" ∈ recognizedNames ∧
    ∃ o : Pass, (createPass "translation-table" ["b", "a", "b"] []).2.read
        (createPass "translation-table" ["b", "a", "b"] []).1 = some o ∧
      o.configured = [["b", "a", "b"]] ∧
      PassStore.read [] (createPass "translation-table" ["b", "a", "b"] []).1 = none ∧
      (createPass "translation-table" ["b", "a", "b"] []).2 = [] ++ [o] :=
  ⟨by decide, createPass_configured_once "translation-table" ["b", "a", "b"] [] (by decide)⟩

end transforms

end vanaheimr

/-! ## The instruction heap -/

namespace vanaheimr

namespace ir

theorem Heap.read_le {h : Heap} {p : Nat} {o : Instruction} (hp : h.read p = some o) :
    0 < p ∧ p ≤ h.length := by
  obtain _ | k := p
  · simp [Heap.read] at hp
  · by_cases hk : k < h.length
    · exact ⟨by omega, by omega⟩
    · simp [Heap.read, List.getElem?_eq_none (Nat.le_of_not_lt hk)] at hp

theorem Heap.read_append_left (h t : Heap) {p : Nat} (hp : p ≤ h.length) :
    Heap.read (h ++ t) p = h.read p := by
  obtain _ | k := p
  · rfl
  · have hk : k < h.length := by omega
    simp [Heap.read, List.getElem?_append_left hk]

theorem Heap.read_append_of_read (h t : Heap) {p : Nat} {o : Instruction}
    (hp : h.read p = some o) : Heap.read (h ++ t) p = some o := by
  rw [Heap.read_append_left h t (Heap.read_le hp).2, hp]

theorem Heap.read_append_right (h t : Heap) (k : Nat) :
    Heap.read (h ++ t) (h.length + 1 + k) = Heap.read t (k + 1) := by
  have e : h.length + 1 + k = (h.length + k) + 1 := by omega
  rw [e]
  simp [Heap.read, List.getElem?_append_right]

theorem Heap.read_set_destroyed (h : Heap) (k : Nat) (p : Nat) :
    Heap.read (h.set k Cell.destroyed) p = if p = k + 1 then none else h.read p := by
  obtain _ | j := p
  · simp [Heap.read]
  · by_cases hj : j = k
    · subst hj
      by_cases hl : j < h.length
      · simp [Heap.read, List.getElem?_set_self, hl]
      · have hl2 : (h.set j Cell.destroyed).length ≤ j := by simp; omega
        simp [Heap.read, List.getElem?_eq_none hl2]
    · have hne : ¬ k = j := fun e => hj e.symm
      simp [Heap.read, List.getElem?_set_ne hne, hj]

theorem Heap.delete_of_read {h : Heap} {p : Nat} {o : Instruction} (hp : h.read p = some o) :
    h.delete p = Except.ok (h.set (p - 1) Cell.destroyed) := by
  have := Heap.read_le hp
  simp [Heap.delete, hp, Nat.pos_iff_ne_zero.mp this.1]

theorem Heap.read_delete {h h1 : Heap} {p : Nat} (hd : h.delete p = Except.ok h1) (q : Nat) :
    h1.read q = if q = p then none else h.read q := by
  unfold Heap.delete at hd
  split at hd
  · rename_i hp0
    cases hd
    subst hp0
    by_cases hq : q = 0
    · subst hq; simp [Heap.read]
    · simp [hq]
  · rename_i hp0
    split at hd
    · cases hd
      rw [Heap.read_set_destroyed]
      have e : p - 1 + 1 = p := Nat.sub_add_cancel (Nat.pos_of_ne_zero hp0)
      rw [e]
    · cases hd

theorem clone_of_read {h : Heap} {p : Nat} {o : Instruction} (hp : h.read p = some o) :
    clone h p = Except.ok (h.length + 1, h ++ [Cell.live o]) := by
  simp [clone, hp, Heap.alloc]

theorem Heap.cloneCell_of_read {h : Heap} {p : Nat} {o : Instruction} (hp : h.read p = some o) :
    h.cloneCell p = Cell.live o := by
  simp [Heap.cloneCell, hp]

theorem Heap.cloneCell_append (h t : Heap) {p : Nat} {o : Instruction}
    (hp : h.read p = some o) : Heap.cloneCell (h ++ t) p = h.cloneCell p := by
  simp [Heap.cloneCell, Heap.read_append_of_read h t hp, hp]

/-! ## Copying a block -/

theorem BasicBlock.cloneInto_eq (h : Heap) (b : BasicBlock) (ps : List Nat)
    (hlive : ∀ p ∈ ps, ∃ o, h.read p = some o) :
    BasicBlock.cloneInto h b ps = Except.ok (h ++ ps.map h.cloneCell,
      { b with _instructions := b._instructions ++ List.range' (h.length + 1) ps.length }) := by
  induction ps generalizing h b with
  | nil => simp [BasicBlock.cloneInto]
  | cons p ps ih =>
    obtain ⟨o, ho⟩ := hlive p (List.mem_cons_self _ _)
    have hlive1 : ∀ q ∈ ps, ∃ o1, Heap.read (h ++ [Cell.live o]) q = some o1 := by
      intro q hq
      obtain ⟨o1, ho1⟩ := hlive q (List.mem_cons_of_mem _ hq)
      exact ⟨o1, Heap.read_append_of_read h _ ho1⟩
    have hmap : ps.map (Heap.cloneCell (h ++ [Cell.live o])) = ps.map h.cloneCell := by
      apply List.map_congr_left
      intro q hq
      obtain ⟨o1, ho1⟩ := hlive q (List.mem_cons_of_mem _ hq)
      exact Heap.cloneCell_append h _ ho1
    simp only [BasicBlock.cloneInto, clone_of_read ho]
    rw [ih _ _ hlive1, hmap]
    simp [Heap.cloneCell_of_read ho, BasicBlock.push_back, List.range'_succ]

theorem BasicBlock.deleteAll_read {h h2 : Heap} {ps : List Nat}
    (hd : BasicBlock.deleteAll h ps = Except.ok h2) (q : Nat) (hq : q ∉ ps) :
    h2.read q = h.read q := by
  induction ps generalizing h with
  | nil =>
    simp only [BasicBlock.deleteAll] at hd
    cases hd
    rfl
  | cons p ps ih =>
    simp only [BasicBlock.deleteAll] at hd
    split at hd
    · rename_i h1 hdel
      have hqp : q ≠ p := fun e => hq (e ▸ List.mem_cons_self _ _)
      rw [ih hd (fun hm => hq (List.mem_cons_of_mem _ hm)), Heap.read_delete hdel q]
      simp [hqp]
    · cases hd

theorem BasicBlock.deleteAll_defined (h : Heap) (ps : List Nat) (hnd : ps.Nodup)
    (hlive : ∀ p ∈ ps, ∃ o, h.read p = some o) :
    ∃ h2, BasicBlock.deleteAll h ps = Except.ok h2 ∧ ∀ p ∈ ps, h2.read p = none := by
  induction ps generalizing h with
  | nil => exact ⟨h, rfl, by simp⟩
  | cons p ps ih =>
    obtain ⟨o, ho⟩ := hlive p (List.mem_cons_self _ _)
    have hnp : p ∉ ps := (List.nodup_cons.mp hnd).1
    have hdel := Heap.delete_of_read ho
    have hlive1 : ∀ q ∈ ps, ∃ o1, Heap.read (h.set (p - 1) Cell.destroyed) q = some o1 := by
      intro q hq
      obtain ⟨o1, ho1⟩ := hlive q (List.mem_cons_of_mem _ hq)
      refine ⟨o1, ?_⟩
      rw [Heap.read_delete hdel q]
      have hqp : q ≠ p := fun e => hnp (e ▸ hq)
      simp [hqp, ho1]
    obtain ⟨h2, hh2, hnone⟩ := ih _ (List.nodup_cons.mp hnd).2 hlive1
    refine ⟨h2, ?_, ?_⟩
    · simp only [BasicBlock.deleteAll, hdel]
      exact hh2
    · intro q hq
      rcases List.mem_cons.mp hq with e | hm
      · subst e
        rw [BasicBlock.deleteAll_read hh2 q hnp, Heap.read_delete hdel q]
        simp
      · exact hnone q hm

theorem BasicBlock.copyConstruct_eq (h : Heap) (bb : BasicBlock)
    (hlive : ∀ p ∈ bb._instructions, ∃ o, h.read p = some o) :
    BasicBlock.copyConstruct h bb = Except.ok (h ++ bb._instructions.map h.cloneCell,
      { base := bb.base, _function := bb._function, _id := bb._id,
        _instructions := List.range' (h.length + 1) bb._instructions.length }) := by
  unfold BasicBlock.copyConstruct
  rw [BasicBlock.cloneInto_eq h _ _ hlive]
  simp [BasicBlock.function, BasicBlock.id]

theorem Heap.read_clones (h : Heap) (ps : List Nat) (k p : Nat) (o : Instruction)
    (hk : ps.get? k = some p) (ho : h.read p = some o) :
    Heap.read (h ++ ps.map h.cloneCell) (h.length + 1 + k) = some o := by
  rw [Heap.read_append_right]
  simp only [List.get?_eq_getElem?] at hk
  simp [Heap.read, List.getElem?_map, hk, Heap.cloneCell_of_read ho]

/-- C4: copy-constructing from a block whose `N` instructions are live is
defined and yields a block of size `N`; its `k`-th instruction is what
`clone()` returns on the source's `k`-th instruction (called on the heap
holding the first `k` clones): a new object with the same state at an address
that was not live before and is not in the source; and after the source's
instructions are destroyed by `clear()` every instruction of the copy is
still live with that state (`clear()` being defined when the source holds no
pointer twice). -/
theorem copyConstruct_deep_copy (h : Heap) (bb : BasicBlock)
    (hlive : ∀ p ∈ bb._instructions, ∃ o, h.read p = some o) :
    ∃ h1 c, BasicBlock.copyConstruct h bb = Except.ok (h1, c) ∧
      c.size = bb.size ∧
      (∀ k, k < bb.size → ∃ p q o,
        bb._instructions.get? k = some p ∧ c._instructions.get? k = some q ∧
        clone (h ++ (bb._instructions.take k).map h.cloneCell) p
          = Except.ok (q, h ++ (bb._instructions.take (k + 1)).map h.cloneCell) ∧
        h.read p = some o ∧ h1.read q = some o ∧ h1.read p = some o ∧
        h.read q = none ∧ q ∉ bb._instructions) ∧
      (∀ h2 b2, BasicBlock.clear h1 bb = Except.ok (h2, b2) →
        ∀ q ∈ c._instructions, h2.read q = h1.read q ∧ (h2.read q).isSome = true) ∧
      (bb._instructions.Nodup → ∃ h2, BasicBlock.clear h1 bb = Except.ok (h2, bb)) := by
  have hfresh : ∀ q, h.length < q → q ∉ bb._instructions := by
    intro q hq hm
    obtain ⟨o, ho⟩ := hlive q hm
    have := (Heap.read_le ho).2
    omega
  refine ⟨_, _, BasicBlock.copyConstruct_eq h bb hlive, by simp [BasicBlock.size], ?_, ?_, ?_⟩
  · intro k hk
    simp only [BasicBlock.size] at hk
    have hpk : bb._instructions.get? k = some (bb._instructions.get ⟨k, hk⟩) :=
      List.get?_eq_get hk
    obtain ⟨o, ho⟩ := hlive _ (List.get_mem bb._instructions k hk)
    refine ⟨bb._instructions.get ⟨k, hk⟩, h.length + 1 + k, o, hpk, ?_, ?_, ho,
      Heap.read_clones h _ k _ o hpk ho, Heap.read_append_of_read h _ ho, ?_, ?_⟩
    · simp [List.getElem?_range', hk]
    · rw [clone_of_read (Heap.read_append_of_read h _ ho)]
      have hlen : (List.take k bb._instructions).length = k := by
        simp [List.length_take]; omega
      have htake : List.take (k + 1) bb._instructions
          = List.take k bb._instructions ++ [bb._instructions.get ⟨k, hk⟩] := by
        rw [List.take_succ]
        simp only [List.get?_eq_getElem?] at hpk
        simp [hpk]
      rw [htake, List.map_append, List.map_singleton, Heap.cloneCell_of_read ho,
        List.length_append, List.length_map, hlen, List.append_assoc,
        Nat.add_right_comm h.length k 1]
    · cases hq : h.read (h.length + 1 + k) with
      | none => rfl
      | some o1 =>
        have := (Heap.read_le hq).2
        omega
    · exact hfresh _ (by omega)
  · intro h2 b2 hc q hq
    simp only [List.mem_range'_1] at hq
    have hqn : q ∉ bb._instructions := hfresh q (by omega)
    unfold BasicBlock.clear at hc
    split at hc
    · rename_i h3 hd
      cases hc
      have e := BasicBlock.deleteAll_read hd q hqn
      refine ⟨e, ?_⟩
      rw [e]
      obtain ⟨j, hj⟩ : ∃ j, q = h.length + 1 + j := ⟨q - (h.length + 1), by omega⟩
      have hjlt : j < bb._instructions.length := by omega
      obtain ⟨o, ho⟩ := hlive _ (List.get_mem bb._instructions j hjlt)
      rw [hj, Heap.read_clones h _ j _ o (List.get?_eq_get hjlt) ho]
      rfl
    · cases hc
  · intro hnd
    have hlive1 : ∀ p ∈ bb._instructions,
        ∃ o, Heap.read (h ++ bb._instructions.map h.cloneCell) p = some o := by
      intro p hp
      obtain ⟨o, ho⟩ := hlive p hp
      exact ⟨o, Heap.read_append_of_read h _ ho⟩
    obtain ⟨h2, hh2, _⟩ := BasicBlock.deleteAll_defined _ _ hnd hlive1
    exact ⟨h2, by simp [BasicBlock.clear, hh2]⟩

theorem sampleHeap_live : ∀ p ∈ sampleBlock._instructions, ∃ o, sampleHeap.read p = some o := by
  intro p hp
  simp only [sampleBlock, List.mem_cons, List.mem_singleton, List.not_mem_nil, or_false] at hp
  rcases hp with rfl | rfl
  · exact ⟨sampleAdd, rfl⟩
  · exact ⟨sampleBra, rfl⟩

theorem copyConstruct_deep_copy_witness :
    (∀ p ∈ sampleBlock._instructions, ∃ o, sampleHeap.read p = some o) ∧
    ∃ h1 c, BasicBlock.copyConstruct sampleHeap sampleBlock = Except.ok (h1, c) ∧
      c.size = sampleBlock.size :=
  ⟨sampleHeap_live,
    match copyConstruct_deep_copy sampleHeap sampleBlock sampleHeap_live with
    | ⟨h1, c, hc, hs, _⟩ => ⟨h1, c, hc, hs⟩⟩

theorem Heap.delete_length {h h1 : Heap} {p : Nat} (hd : h.delete p = Except.ok h1) :
    h1.length = h.length := by
  unfold Heap.delete at hd
  split at hd
  · cases hd
    rfl
  · split at hd
    · cases hd
      simp
    · cases hd

theorem BasicBlock.deleteAll_length {h h2 : Heap} {ps : List Nat}
    (hd : BasicBlock.deleteAll h ps = Except.ok h2) : h2.length = h.length := by
  induction ps generalizing h with
  | nil =>
    simp only [BasicBlock.deleteAll] at hd
    cases hd
    rfl
  | cons p ps ih =>
    simp only [BasicBlock.deleteAll] at hd
    split at hd
    · rename_i h1 hdel
      rw [ih hd, Heap.delete_length hdel]
    · cases hd

/-- The copy assignment between two distinct blocks, when the destination's
instructions are live and pairwise distinct and the source's instructions are
live and none of the destination's: the destination's old pointers are all
destroyed and all stay in its list, in front of the clones of the source. -/
theorem BasicBlock.assign_appends_clones (h : Heap) (blocks : List BasicBlock)
    (this bb : Nat) (d s : BasicBlock) (hne : this ≠ bb)
    (hd : blocks.get? this = some d) (hs : blocks.get? bb = some s)
    (hnd : d._instructions.Nodup)
    (hdl : ∀ p ∈ d._instructions, ∃ o, h.read p = some o)
    (hsl : ∀ p ∈ s._instructions, ∃ o, h.read p = some o)
    (hdisj : ∀ p ∈ s._instructions, p ∉ d._instructions) :
    ∃ h2, BasicBlock.assign h blocks this bb = Except.ok (h2, blocks.set this
        { base := s.base, _function := s._function, _id := s._id,
          _instructions :=
            d._instructions ++ List.range' (h.length + 1) s._instructions.length }) ∧
      ∀ p ∈ d._instructions, h2.read p = none := by
  obtain ⟨h1, hh1, hnone⟩ := BasicBlock.deleteAll_defined h d._instructions hnd hdl
  have hsl1 : ∀ p ∈ s._instructions, ∃ o, h1.read p = some o := by
    intro p hp
    obtain ⟨o, ho⟩ := hsl p hp
    exact ⟨o, by rw [BasicBlock.deleteAll_read hh1 p (hdisj p hp), ho]⟩
  have hlen := BasicBlock.deleteAll_length hh1
  refine ⟨h1 ++ s._instructions.map h1.cloneCell, ?_, ?_⟩
  · simp only [BasicBlock.assign, hne, if_false, hd, hs, BasicBlock.clear, hh1]
    rw [BasicBlock.cloneInto_eq h1 _ _ hsl1]
    simp [hlen, BasicBlock.id, BasicBlock.function]
  · intro p hp
    obtain ⟨o, ho⟩ := hdl p hp
    have hle : p ≤ h1.length := by rw [hlen]; exact (Heap.read_le ho).2
    rw [Heap.read_append_left _ _ hle]
    exact hnone p hp

/-- C5 (the code departs from the claim): on the store holding `sampleBlock`
(two instructions) and `sampleSource` (one instruction), the assignment
`sampleBlock = sampleSource` is defined, destroys the two prior instructions
of the destination, and leaves a destination of size 3, not 1: the two
destroyed pointers are still its first two elements, followed by the clone. -/
theorem assign_keeps_destroyed_pointers :
    ∃ h1 d1, BasicBlock.assign sampleHeap [sampleBlock, sampleSource] 0 1
        = Except.ok (h1, [d1, sampleSource]) ∧
      sampleSource.size = 1 ∧ d1.size = 3 ∧ d1._instructions = [1, 2, 4] ∧
      h1.read 1 = none ∧ h1.read 2 = none ∧ h1.read 4 = some sampleLd :=
  ⟨_, _, rfl, rfl, rfl, rfl, rfl, rfl, rfl⟩

/-! ## The terminator -/

theorem BasicBlock.back_eq_iff (b : BasicBlock) (p : Nat) :
    b.back = Except.ok p ↔ b._instructions.getLast? = some p := by
  unfold BasicBlock.back
  cases hl : b._instructions.getLast? <;> simp

theorem BasicBlock.empty_of_back {b : BasicBlock} {p : Nat} (hb : b.back = Except.ok p) :
    b.empty = false := by
  rw [BasicBlock.back_eq_iff] at hb
  cases hi : b._instructions with
  | nil => simp [hi] at hb
  | cons x xs => simp [BasicBlock.empty, hi]

theorem BasicBlock.terminator_of_back {h : Heap} {b : BasicBlock} {p : Nat} {o : Instruction}
    (hb : b.back = Except.ok p) (ho : h.read p = some o) :
    b.terminator h = Except.ok (if o.isBranch = true then p else 0) := by
  unfold BasicBlock.terminator
  rw [BasicBlock.empty_of_back hb]
  cases hbr : o.isBranch <;> simp [hb, isBranchAt, ho, hbr]

theorem BasicBlock.terminator_ne_null {h : Heap} {b : BasicBlock} {t : Nat}
    (ht : b.terminator h = Except.ok t) (h0 : t ≠ 0) :
    b.back = Except.ok t ∧ ∃ o, h.read t = some o ∧ o.isBranch = true := by
  unfold BasicBlock.terminator at ht
  split at ht
  · cases ht
    exact absurd rfl h0
  · split at ht
    · rename_i p hb
      unfold isBranchAt at ht
      cases ho : h.read p with
      | none => simp [ho] at ht
      | some o =>
        cases hbr : o.isBranch with
        | false =>
          simp [ho, hbr] at ht
          exact absurd ht.symm h0
        | true =>
          simp [ho, hbr, hb] at ht
          subst ht
          exact ⟨hb, o, ho, hbr⟩
    · cases ht

theorem BasicBlock.terminator_null {h : Heap} {b : BasicBlock}
    (ht : b.terminator h = Except.ok 0) :
    b._instructions = [] ∨
      ∃ p o, b.back = Except.ok p ∧ h.read p = some o ∧ o.isBranch = false := by
  unfold BasicBlock.terminator at ht
  split at ht
  · rename_i he
    left
    simpa [BasicBlock.empty] using he
  · split at ht
    · rename_i p hb
      right
      unfold isBranchAt at ht
      cases ho : h.read p with
      | none => simp [ho] at ht
      | some o =>
        cases hbr : o.isBranch with
        | false => exact ⟨p, o, hb, ho, hbr⟩
        | true =>
          simp [ho, hbr, hb] at ht
          subst ht
          exact absurd ho (by simp [Heap.read])
    · cases ht

/-- C6: the two overloads of `terminator()` agree; on an empty block the
result is null; on a block whose last instruction `p` is live the result is
`p` when `p` satisfies `isBranch()` and null when it does not; and a non-null
result is always the last instruction, a control-transfer instruction. -/
theorem terminator_is_last_branch (h : Heap) (b : BasicBlock) :
    b.terminatorConst h = b.terminator h ∧
    (b.empty = true → b.terminator h = Except.ok 0) ∧
    (∀ p o, b.empty = false → b.back = Except.ok p → h.read p = some o →
      o.isBranch = true → b.terminator h = Except.ok p) ∧
    (∀ p o, b.back = Except.ok p → h.read p = some o →
      o.isBranch = false → b.terminator h = Except.ok 0) ∧
    (∀ q, b.terminator h = Except.ok q → q ≠ 0 →
      b.back = Except.ok q ∧ ∃ o, h.read q = some o ∧ o.isBranch = true) := by
  refine ⟨rfl, ?_, ?_, ?_, ?_⟩
  · intro he
    simp [BasicBlock.terminator, he]
  · intro p o _ hb ho hbr
    rw [BasicBlock.terminator_of_back hb ho]
    simp [hbr]
  · intro p o hb ho hbr
    rw [BasicBlock.terminator_of_back hb ho]
    simp [hbr]
  · intro q hq h0
    exact BasicBlock.terminator_ne_null hq h0

theorem terminator_is_last_branch_witness :
    sampleBlock.terminator sampleHeap = Except.ok 2 ∧
    sampleSource.terminator sampleHeap = Except.ok 0 ∧
    sampleEmpty.terminator sampleHeap = Except.ok 0 :=
  ⟨(terminator_is_last_branch sampleHeap sampleBlock).2.2.1 2 sampleBra rfl rfl rfl rfl,
   (terminator_is_last_branch sampleHeap sampleSource).2.2.2.1 3 sampleLd rfl rfl rfl,
   (terminator_is_last_branch sampleHeap sampleEmpty).2.1 rfl⟩

theorem BasicBlock.setTerminator_replace {h : Heap} {b : BasicBlock} {i t : Nat}
    {o : Instruction} (ht : b.terminator h = Except.ok t) (h0 : t ≠ 0) (hne : i ≠ t)
    (ho : h.read i = some o) :
    b.setTerminator h i = Except.ok (h.set (t - 1) Cell.destroyed ++ [Cell.live o],
      { b with _instructions := b._instructions.dropLast ++ [h.length + 1] }) := by
  obtain ⟨hb, ot, hot, _⟩ := BasicBlock.terminator_ne_null ht h0
  have hdel := Heap.delete_of_read hot
  have hread : Heap.read (h.set (t - 1) Cell.destroyed) i = some o := by
    rw [Heap.read_delete hdel i]
    simp [hne, ho]
  have hclone := clone_of_read hread
  have hlast := (BasicBlock.back_eq_iff b t).mp hb
  simp only [List.length_set] at hclone
  simp [BasicBlock.setTerminator, ht, h0, hb, hdel, hclone, BasicBlock.setBack, hlast]

theorem BasicBlock.setTerminator_append {h : Heap} {b : BasicBlock} (i : Nat)
    (ht : b.terminator h = Except.ok 0) :
    b.setTerminator h i = Except.ok (h, b.push_back i) := by
  simp [BasicBlock.setTerminator, ht]

theorem List.length_dropLast_append_singleton {α : Type} (l : List α) (x : α) (hl : l ≠ []) :
    (l.dropLast ++ [x]).length = l.length := by
  have := List.length_pos_of_ne_nil hl
  simp only [List.length_append, List.length_dropLast, List.length_singleton]
  omega

theorem List.get?_dropLast_append_singleton {α : Type} (l : List α) (x : α) (k : Nat)
    (hk : k + 1 < l.length) : (l.dropLast ++ [x]).get? k = l.get? k := by
  have h1 : k < l.dropLast.length := by simp only [List.length_dropLast]; omega
  simp only [List.get?_eq_getElem?]
  rw [List.getElem?_append_left h1, List.dropLast_eq_take, List.getElem?_take]
  simp; omega

/-- C7 fails as stated: `sampleBlock` has the terminator at address 2, a live
`Bra`; passing that same instruction to `setTerminator` deletes it and then
calls `clone()` through the dangling pointer, so the call is undefined and
yields no block at all. -/
theorem setTerminator_own_terminator_undefined :
    sampleBlock.terminator sampleHeap = Except.ok 2 ∧
    sampleHeap.read 2 = some sampleBra ∧
    sampleBlock.setTerminator sampleHeap 2 = Except.error Undefined.invalidPointer ∧
    ¬ ∃ h1 b1, sampleBlock.setTerminator sampleHeap 2 = Except.ok (h1, b1) := by
  refine ⟨rfl, rfl, rfl, ?_⟩
  rintro ⟨h1, b1, he⟩
  have hu : sampleBlock.setTerminator sampleHeap 2
      = Except.error Undefined.invalidPointer := rfl
  rw [hu] at he
  cases he

/-- C7, amended: for every block `b` and instruction `i`: if `b` has a
terminator `t` and `i` is a live instruction other than `t`, then
`setTerminator(i)` replaces in place: the size is unchanged, every
instruction before the last keeps its position, `t` is destroyed, the new
last instruction is a new object carrying the opcode and fields of `i`, and
no other object of the heap changes; if `b` has no terminator, then
`setTerminator(i)` appends: the heap is unchanged, the size grows by one, the
previous instructions keep their positions and the new last instruction is
`i`. -/
theorem setTerminator_replaces_or_appends (h : Heap) (b : BasicBlock) (i : Nat) :
    (∀ t o, b.terminator h = Except.ok t → t ≠ 0 → i ≠ t → h.read i = some o →
      ∃ h1 b1 q, b.setTerminator h i = Except.ok (h1, b1) ∧
        b1.size = b.size ∧
        (∀ k, k + 1 < b.size → b1._instructions.get? k = b._instructions.get? k) ∧
        h1.read t = none ∧
        b1.back = Except.ok q ∧ h1.read q = some o ∧ h.read q = none ∧
        (∀ p, p ≠ t → p ≠ q → h1.read p = h.read p) ∧
        b1.id = b.id ∧ b1.function = b.function) ∧
    (b.terminator h = Except.ok 0 →
      ∃ b1, b.setTerminator h i = Except.ok (h, b1) ∧
        b1.size = b.size + 1 ∧
        (∀ k, k < b.size → b1._instructions.get? k = b._instructions.get? k) ∧
        b1.back = Except.ok i ∧
        b1.id = b.id ∧ b1.function = b.function) := by
  constructor
  · intro t o ht h0 hne ho
    obtain ⟨hb, ot, hot, _⟩ := BasicBlock.terminator_ne_null ht h0
    have hnil : b._instructions ≠ [] := by
      intro e
      simp [BasicBlock.back, e] at hb
    have hdel := Heap.delete_of_read hot
    have htl := Heap.read_le hot
    refine ⟨_, _, h.length + 1, BasicBlock.setTerminator_replace ht h0 hne ho, ?_, ?_, ?_, ?_,
      ?_, ?_, ?_, rfl, rfl⟩
    · exact List.length_dropLast_append_singleton _ _ hnil
    · intro k hk
      exact List.get?_dropLast_append_singleton _ _ k hk
    · rw [Heap.read_append_left _ _ (by simp only [List.length_set]; exact htl.2),
        Heap.read_delete hdel t]
      simp
    · simp [BasicBlock.back]
    · have e := Heap.read_append_right (h.set (t - 1) Cell.destroyed) [Cell.live o] 0
      simp only [List.length_set, Nat.add_zero] at e
      rw [e]
      rfl
    · cases hq : h.read (h.length + 1) with
      | none => rfl
      | some o1 =>
        have := (Heap.read_le hq).2
        omega
    · intro p hpt hpq
      by_cases hp : p ≤ h.length
      · rw [Heap.read_append_left _ _ (by simp only [List.length_set]; exact hp),
          Heap.read_delete hdel p]
        simp [hpt]
      · have hp2 : ∃ j, p = h.length + 1 + (j + 1) := ⟨p - (h.length + 2), by omega⟩
        obtain ⟨j, rfl⟩ := hp2
        have e := Heap.read_append_right (h.set (t - 1) Cell.destroyed) [Cell.live o] (j + 1)
        simp only [List.length_set] at e
        rw [e]
        cases hq : h.read (h.length + 1 + (j + 1)) with
        | none => simp [Heap.read]
        | some o1 =>
          have := (Heap.read_le hq).2
          omega
  · intro ht
    refine ⟨_, BasicBlock.setTerminator_append i ht, ?_, ?_, ?_, rfl, rfl⟩
    · simp [BasicBlock.size, BasicBlock.push_back]
    · intro k hk
      simp only [BasicBlock.size] at hk
      simp [BasicBlock.push_back, List.getElem?_append_left hk]
    · simp [BasicBlock.back, BasicBlock.push_back]

theorem setTerminator_replaces_or_appends_witness :
    (∃ h1 b1 q, sampleBlock.setTerminator sampleHeap 3 = Except.ok (h1, b1) ∧
      b1.size = sampleBlock.size ∧ h1.read 2 = none ∧
      b1.back = Except.ok q ∧ h1.read q = some sampleLd) ∧
    (∃ b1, sampleSource.setTerminator sampleHeap 2 = Except.ok (sampleHeap, b1) ∧
      b1.size = sampleSource.size + 1 ∧ b1.back = Except.ok 2) :=
  ⟨match (setTerminator_replaces_or_appends sampleHeap sampleBlock 3).1 2 sampleLd rfl
      (by decide) (by decide) rfl with
    | ⟨h1, b1, q, hs, hsz, _, hd, hb, hq, _⟩ => ⟨h1, b1, q, hs, hsz, hd, hb, hq⟩,
   match (setTerminator_replaces_or_appends sampleHeap sampleSource 2).2 rfl with
    | ⟨b1, hs, hsz, _, hb, _⟩ => ⟨b1, hs, hsz, hb⟩⟩

/-! ## The terminator invariant over sequences of calls -/

theorem BasicBlock.setTerminator_inv {h h1 : Heap} {b b1 : BasicBlock} {i t : Nat}
    (ht : b.terminator h = Except.ok t) (h0 : t ≠ 0)
    (hs : b.setTerminator h i = Except.ok (h1, b1)) :
    i ≠ t ∧ ∃ o, h.read i = some o := by
  obtain ⟨hb, ot, hot, _⟩ := BasicBlock.terminator_ne_null ht h0
  have hdel := Heap.delete_of_read hot
  cases hi : Heap.read (h.set (t - 1) Cell.destroyed) i with
  | none =>
    simp [BasicBlock.setTerminator, ht, h0, hb, hdel, clone, hi] at hs
  | some o =>
    rw [Heap.read_delete hdel i] at hi
    by_cases e : i = t
    · simp [e] at hi
    · simp only [e, if_false] at hi
      exact ⟨e, o, hi⟩

theorem NonLastAreNotBranches.of_nil {h : Heap} {b : BasicBlock} (hb : b._instructions = []) :
    NonLastAreNotBranches h b := by
  intro k p hk
  simp [BasicBlock.size, hb] at hk

theorem NonLastAreNotBranches.push_back {h : Heap} {b : BasicBlock} (i : Nat)
    (hJ : NonLastAreNotBranches h b) (ht : b.terminator h = Except.ok 0) :
    NonLastAreNotBranches h (b.push_back i) := by
  intro k p hk hp
  simp only [BasicBlock.size, BasicBlock.push_back, List.length_append,
    List.length_singleton] at hk
  have hk1 : k < b._instructions.length := by omega
  simp only [BasicBlock.push_back, List.get?_eq_getElem?, List.getElem?_append_left hk1] at hp
  by_cases hlast : k + 1 < b._instructions.length
  · exact hJ k p hlast (by simpa only [List.get?_eq_getElem?] using hp)
  · rcases BasicBlock.terminator_null ht with hnil | ⟨q, o, hq, ho, hbr⟩
    · simp [hnil] at hk1
    · rw [BasicBlock.back_eq_iff, List.getLast?_eq_getElem?] at hq
      have e : b._instructions.length - 1 = k := by omega
      rw [e, hp] at hq
      cases hq
      exact ⟨o, ho, hbr⟩

theorem NonLastAreNotBranches.setTerminator {h h1 : Heap} {b b1 : BasicBlock} {i : Nat}
    (hJ : NonLastAreNotBranches h b) (hs : b.setTerminator h i = Except.ok (h1, b1)) :
    NonLastAreNotBranches h1 b1 := by
  cases ht : b.terminator h with
  | error e => simp [BasicBlock.setTerminator, ht] at hs
  | ok t =>
    by_cases h0 : t = 0
    · subst h0
      rw [BasicBlock.setTerminator_append i ht] at hs
      cases hs
      exact NonLastAreNotBranches.push_back i hJ ht
    · obtain ⟨hne, o, ho⟩ := BasicBlock.setTerminator_inv ht h0 hs
      obtain ⟨hb, ot, hot, hbr⟩ := BasicBlock.terminator_ne_null ht h0
      have hnil : b._instructions ≠ [] := by
        intro e
        simp [BasicBlock.back, e] at hb
      rw [BasicBlock.setTerminator_replace ht h0 hne ho] at hs
      cases hs
      intro k p hk hp
      simp only [BasicBlock.size, List.length_dropLast_append_singleton _ _ hnil] at hk
      rw [List.get?_dropLast_append_singleton _ _ k hk] at hp
      obtain ⟨o1, ho1, hbr1⟩ := hJ k p hk hp
      have hpt : p ≠ t := by
        intro e
        rw [e, hot] at ho1
        cases ho1
        rw [hbr] at hbr1
        cases hbr1
      refine ⟨o1, ?_, hbr1⟩
      rw [Heap.read_append_left _ _
        (by simp only [List.length_set]; exact (Heap.read_le ho1).2),
        Heap.read_delete (Heap.delete_of_read hot) p]
      simp [hpt, ho1]

theorem NonLastAreNotBranches.invariant {h : Heap} {b : BasicBlock}
    (hJ : NonLastAreNotBranches h b) : TerminatorInvariant h b := by
  intro k p o hp ho hbr
  have hk : k < b._instructions.length := by
    simp only [List.get?_eq_getElem?] at hp
    exact (List.getElem?_eq_some_iff.mp hp).1
  by_cases hlast : k + 1 < b.size
  · obtain ⟨o1, ho1, hbr1⟩ := hJ k p hlast hp
    rw [ho] at ho1
    cases ho1
    rw [hbr] at hbr1
    cases hbr1
  · simp only [BasicBlock.size] at hlast ⊢
    omega

theorem NonLastAreNotBranches.run {calls : List Mutation} {st st1 : Heap × BasicBlock}
    (hJ : NonLastAreNotBranches st.1 st.2) (hg : pushBackWithoutTerminator st calls)
    (hr : run st calls = Except.ok st1) : NonLastAreNotBranches st1.1 st1.2 := by
  induction calls generalizing st with
  | nil =>
    simp only [ir.run] at hr
    cases hr
    exact hJ
  | cons c cs ih =>
    simp only [ir.run] at hr
    simp only [pushBackWithoutTerminator] at hg
    obtain ⟨hg1, hg2⟩ := hg
    cases hstep : step st c with
    | error e => simp [hstep] at hr
    | ok st2 =>
      simp only [hstep] at hr hg2
      refine ih ?_ hg2 hr
      cases c with
      | push_back i =>
        simp only [step] at hstep
        cases hstep
        exact NonLastAreNotBranches.push_back i hJ hg1
      | setTerminator i =>
        simp only [step] at hstep
        exact NonLastAreNotBranches.setTerminator hJ hstep

/-- C8 fails as stated: starting from the empty block, `push_back` of the
`Bra` at address 2 followed by `push_back` of the `Add` at address 1 is
defined and leaves the block `[2, 1]`, whose control-transfer instruction is
at position 0 and not last. -/
theorem push_back_breaks_terminator_invariant :
    sampleEmpty._instructions = [] ∧
    ∃ h1 b1, run (sampleHeap, sampleEmpty) [Mutation.push_back 2, Mutation.push_back 1]
        = Except.ok (h1, b1) ∧
      b1._instructions = [2, 1] ∧ h1.read 2 = some sampleBra ∧
      sampleBra.isBranch = true ∧ ¬ TerminatorInvariant h1 b1 := by
  refine ⟨rfl, sampleHeap, _, rfl, rfl, rfl, rfl, ?_⟩
  intro hinv
  have h2 := hinv 0 2 sampleBra rfl rfl rfl
  simp [BasicBlock.size, BasicBlock.push_back, sampleEmpty] at h2

/-! ## Re-parenting and the sequence operations -/

/-- C9: after `setFunction(f)` the accessor `function()` returns `f`, while
`id()`, `size()` and the instruction sequence, pointer by pointer and
position by position, are what they were before the call. -/
theorem setFunction_frame (b : BasicBlock) (f : Nat) :
    (b.setFunction f).function = f ∧ (b.setFunction f).id = b.id ∧
    (b.setFunction f).size = b.size ∧
    (b.setFunction f)._instructions = b._instructions ∧
    (∀ k, (b.setFunction f)._instructions.get? k = b._instructions.get? k) :=
  ⟨rfl, rfl, rfl, rfl, fun _ => rfl⟩

theorem List.eraseIdx_take_cons_drop {α : Type} (l : List α) (x : α) (p : Nat)
    (hp : p ≤ l.length) : (l.take p ++ x :: l.drop p).eraseIdx p = l := by
  induction p generalizing l with
  | zero => simp
  | succ n ih =>
    cases l with
    | nil => simp at hp
    | cons y ys =>
      simp only [List.length_cons, Nat.add_le_add_iff_right] at hp
      simp [ih ys hp]

theorem List.get?_take_cons_drop_lt {α : Type} (l : List α) (x : α) (p k : Nat) (hk : k < p)
    (hp : p ≤ l.length) : (l.take p ++ x :: l.drop p).get? k = l.get? k := by
  have h1 : k < (l.take p).length := by simp only [List.length_take]; omega
  simp only [List.get?_eq_getElem?]
  rw [List.getElem?_append_left h1, List.getElem?_take]
  simp [hk]

theorem List.get?_take_cons_drop_ge {α : Type} (l : List α) (x : α) (p k : Nat) (hk : p ≤ k)
    (hp : p ≤ l.length) : (l.take p ++ x :: l.drop p).get? (k + 1) = l.get? k := by
  have h1 : (l.take p).length = p := by simp only [List.length_take]; omega
  have h2 : (l.take p).length ≤ k + 1 := by omega
  have e : k + 1 - p = (k - p) + 1 := by omega
  simp only [List.get?_eq_getElem?]
  rw [List.getElem?_append_right h2, h1, e, List.getElem?_cons_succ, List.getElem?_drop]
  congr 1
  omega

theorem List.get?_take_cons_drop_self {α : Type} (l : List α) (x : α) (p : Nat)
    (hp : p ≤ l.length) : (l.take p ++ x :: l.drop p).get? p = some x := by
  have h1 : (l.take p).length = p := by simp only [List.length_take]; omega
  have h2 : (l.take p).length ≤ p := by omega
  simp only [List.get?_eq_getElem?]
  rw [List.getElem?_append_right h2, h1]
  simp

/-- C10: the block is an ordered sequence.  `push_back(i)` turns `[x0..xn-1]`
into `[x0..xn-1, i]` with `back() == i`; `push_front(i)` turns it into
`[i, x0..xn-1]` with `front() == i`; `insert(p, i)` at a position `p` of the
block (`end()` included) puts `i` immediately before the element that was at
`p` and returns the position of `i`.  Each time `size()` grows by exactly one,
`empty()` is false afterwards, and removing `i` gives back the old sequence,
so the existing instructions keep their relative order. -/
theorem sequence_operations (b : BasicBlock) (i p : Nat) :
    ((b.push_back i)._instructions = b._instructions ++ [i] ∧
      (b.push_back i).back = Except.ok i ∧
      (b.push_back i).size = b.size + 1 ∧ (b.push_back i).empty = false ∧
      (b.push_back i)._instructions.dropLast = b._instructions) ∧
    ((b.push_front i)._instructions = i :: b._instructions ∧
      (b.push_front i).front = Except.ok i ∧
      (b.push_front i).size = b.size + 1 ∧ (b.push_front i).empty = false ∧
      (b.push_front i)._instructions.tail = b._instructions) ∧
    (p ≤ b.size → ∃ b1, b.insert p i = Except.ok (b1, p) ∧
      b1._instructions = b._instructions.take p ++ i :: b._instructions.drop p ∧
      b1._instructions.get? p = some i ∧
      (∀ k, k < p → b1._instructions.get? k = b._instructions.get? k) ∧
      (∀ k, p ≤ k → b1._instructions.get? (k + 1) = b._instructions.get? k) ∧
      b1.size = b.size + 1 ∧ b1.empty = false ∧
      b1._instructions.eraseIdx p = b._instructions) := by
  refine ⟨⟨rfl, ?_, ?_, ?_, ?_⟩, ⟨rfl, rfl, ?_, rfl, rfl⟩, ?_⟩
  · simp [BasicBlock.back, BasicBlock.push_back]
  · simp [BasicBlock.size, BasicBlock.push_back]
  · simp [BasicBlock.empty, BasicBlock.push_back]
  · simp [BasicBlock.push_back]
  · simp [BasicBlock.size, BasicBlock.push_front]
  · intro hp
    simp only [BasicBlock.size] at hp
    refine ⟨{ b with _instructions :=
        b._instructions.take p ++ i :: b._instructions.drop p },
      by simp [BasicBlock.insert, hp], rfl, ?_, ?_, ?_, ?_, ?_, ?_⟩
    · exact List.get?_take_cons_drop_self _ _ _ hp
    · intro k hk
      exact List.get?_take_cons_drop_lt _ _ _ _ hk hp
    · intro k hk
      exact List.get?_take_cons_drop_ge _ _ _ _ hk hp
    · simp only [BasicBlock.size, List.length_append, List.length_cons, List.length_take,
        List.length_drop]
      omega
    · simp [BasicBlock.empty]
    · exact List.eraseIdx_take_cons_drop _ _ _ hp

theorem sequence_operations_witness :
    1 ≤ sampleBlock.size ∧
    ∃ b1, sampleBlock.insert 1 3 = Except.ok (b1, 1) ∧ b1._instructions = [1, 3, 2] ∧
      b1.size = sampleBlock.size + 1 :=
  ⟨by decide,
    match (sequence_operations sampleBlock 3 1).2.2 (by decide) with
    | ⟨b1, hi, hl, _, _, _, hs, _⟩ => ⟨b1, hi, hl, hs⟩⟩

/-! ## The levels of a memory barrier -/

/-- C11: the values of the `Membar::Level` enumerators realize the strict
order `Thread < Warp < Cta < Kernel`, where `Kernel`, written `(uint32_t)-1`,
has the value `2^32 - 1`; `InvalidLevel` has the value 0, which is smaller
than, hence distinct from, the value of every valid level. -/
theorem membar_level_order :
    Membar.Level.Thread.value < Membar.Level.Warp.value ∧
    Membar.Level.Warp.value < Membar.Level.Cta.value ∧
    Membar.Level.Cta.value < Membar.Level.Kernel.value ∧
    Membar.Level.Kernel.value = 2 ^ 32 - 1 ∧
    Membar.Level.InvalidLevel.value = 0 ∧
    (∀ l : Membar.Level, l ≠ Membar.Level.InvalidLevel →
      Membar.Level.InvalidLevel.value < l.value ∧
      Membar.Level.InvalidLevel.value ≠ l.value) := by
  have hk : Membar.Level.Kernel.value = 4294967295 := by decide
  refine ⟨by decide, by decide, ?_, ?_, rfl, ?_⟩
  · rw [hk]; decide
  · rw [hk]; norm_num
  · intro l hl
    cases l with
    | Thread => exact ⟨by decide, by decide⟩
    | Warp => exact ⟨by decide, by decide⟩
    | Cta => exact ⟨by decide, by decide⟩
    | Kernel => rw [hk]; exact ⟨by decide, by decide⟩
    | InvalidLevel => exact absurd rfl hl

/-! ## One step of `setTerminator` and the invariant -/

theorem BasicBlock.mem_of_get? {l : List Nat} {k p : Nat} (hp : l.get? k = some p) :
    p ∈ l ∧ k < l.length := by
  simp only [List.get?_eq_getElem?] at hp
  obtain ⟨hk, he⟩ := List.getElem?_eq_some_iff.mp hp
  exact ⟨he ▸ List.getElem_mem hk, hk⟩

theorem TerminatorInvariant.after_setTerminator {h h1 : Heap} {b b1 : BasicBlock} {i : Nat}
    (halloc : ∀ p ∈ b._instructions, p ≤ h.length) (hinv : TerminatorInvariant h b)
    (hs : b.setTerminator h i = Except.ok (h1, b1)) : TerminatorInvariant h1 b1 := by
  cases ht : b.terminator h with
  | error e => simp [BasicBlock.setTerminator, ht] at hs
  | ok t =>
    by_cases h0 : t = 0
    · subst h0
      rw [BasicBlock.setTerminator_append i ht] at hs
      cases hs
      intro k p o hp ho hbr
      obtain ⟨_, hk⟩ := BasicBlock.mem_of_get? hp
      simp only [BasicBlock.push_back, List.length_append, List.length_singleton] at hk
      simp only [BasicBlock.size, BasicBlock.push_back, List.length_append,
        List.length_singleton]
      by_cases hlt : k < b._instructions.length
      · exfalso
        simp only [BasicBlock.push_back, List.get?_eq_getElem?,
          List.getElem?_append_left hlt] at hp
        have hp1 : b._instructions.get? k = some p := by
          simpa only [List.get?_eq_getElem?] using hp
        have hk1 := hinv k p o hp1 ho hbr
        simp only [BasicBlock.size] at hk1
        rcases BasicBlock.terminator_null ht with hnil | ⟨q, o1, hq, ho1, hbr1⟩
        · simp [hnil] at hlt
        · rw [BasicBlock.back_eq_iff, List.getLast?_eq_getElem?] at hq
          have e : b._instructions.length - 1 = k := by omega
          rw [e, hp] at hq
          cases hq
          rw [ho] at ho1
          cases ho1
          rw [hbr] at hbr1
          cases hbr1
      · omega
    · obtain ⟨hne, oi, hoi⟩ := BasicBlock.setTerminator_inv ht h0 hs
      obtain ⟨hb, ot, hot, _⟩ := BasicBlock.terminator_ne_null ht h0
      have hnil : b._instructions ≠ [] := by
        intro e
        simp [BasicBlock.back, e] at hb
      rw [BasicBlock.setTerminator_replace ht h0 hne hoi] at hs
      cases hs
      intro k p o hp ho hbr
      obtain ⟨_, hk⟩ := BasicBlock.mem_of_get? hp
      simp only [List.length_dropLast_append_singleton _ _ hnil] at hk
      simp only [BasicBlock.size, List.length_dropLast_append_singleton _ _ hnil]
      by_cases hlt : k + 1 < b._instructions.length
      · exfalso
        rw [List.get?_dropLast_append_singleton _ _ k hlt] at hp
        have hle := halloc p (BasicBlock.mem_of_get? hp).1
        rw [Heap.read_append_left _ _ (by simp only [List.length_set]; exact hle),
          Heap.read_delete (Heap.delete_of_read hot) p] at ho
        by_cases hpt : p = t
        · simp [hpt] at ho
        · simp only [hpt, if_false] at ho
          have hk1 := hinv k p o hp ho hbr
          simp only [BasicBlock.size] at hk1
          omega
      · omega

theorem sampleBlock_invariant : TerminatorInvariant sampleHeap sampleBlock := by
  intro k p o hp ho hbr
  match k, hp with
  | 0, hp =>
    simp only [sampleBlock, List.get?_cons_zero, Option.some.injEq] at hp
    subst hp
    simp only [sampleHeap, Heap.read, List.get?_cons_zero, Option.some.injEq] at ho
    subst ho
    simp [Instruction.isBranch, sampleAdd] at hbr
  | 1, _ => rfl
  | n + 2, hp => simp [sampleBlock] at hp

/-! ## Unchecked access -/

theorem BasicBlock.back_of_not_empty {b : BasicBlock} (he : b.empty = false) :
    ∃ p, b.back = Except.ok p ∧ b._instructions.getLast? = some p := by
  cases hl : b._instructions.getLast? with
  | none =>
    rw [List.getLast?_eq_none_iff] at hl
    simp [BasicBlock.empty, hl] at he
  | some p => exact ⟨p, by simp [BasicBlock.back, hl], rfl⟩

theorem BasicBlock.terminator_cases (h : Heap) (b : BasicBlock) :
    (∃ t, b.terminator h = Except.ok t) ∨
      b.terminator h = Except.error Undefined.invalidPointer := by
  unfold BasicBlock.terminator
  cases he : b.empty with
  | true => exact Or.inl ⟨0, by simp⟩
  | false =>
    obtain ⟨p, hb, _⟩ := BasicBlock.back_of_not_empty he
    cases ho : h.read p with
    | none => exact Or.inr (by simp [hb, isBranchAt, ho])
    | some o =>
      cases hbr : o.isBranch with
      | true => exact Or.inl ⟨p, by simp [hb, isBranchAt, ho, hbr]⟩
      | false => exact Or.inl ⟨0, by simp [hb, isBranchAt, ho, hbr]⟩

theorem BasicBlock.setTerminator_cases (h : Heap) (b : BasicBlock) (i : Nat) :
    (∃ st, b.setTerminator h i = Except.ok st) ∨
      b.setTerminator h i = Except.error Undefined.invalidPointer := by
  rcases BasicBlock.terminator_cases h b with ⟨t, ht⟩ | ht
  · by_cases h0 : t = 0
    · subst h0
      exact Or.inl ⟨_, BasicBlock.setTerminator_append i ht⟩
    · obtain ⟨hb, ot, hot, _⟩ := BasicBlock.terminator_ne_null ht h0
      have hdel := Heap.delete_of_read hot
      have hlast := (BasicBlock.back_eq_iff b t).mp hb
      cases hi : Heap.read (h.set (t - 1) Cell.destroyed) i with
      | none =>
        exact Or.inr (by simp [BasicBlock.setTerminator, ht, h0, hb, hdel, clone, hi])
      | some o =>
        exact Or.inl ⟨_, by
          simp [BasicBlock.setTerminator, ht, h0, hb, hdel, clone, hi, Heap.alloc,
            BasicBlock.setBack, hlast]; rfl⟩
  · exact Or.inr (by simp [BasicBlock.setTerminator, ht])

/-- C13: `back()` being an access that is undefined on the empty list, neither
overload of `terminator()` nor `setTerminator(i)` ever ends in that undefined
access, on any block, the empty one included: on an empty block, where
`back()` would be undefined, `terminator()` returns null and
`setTerminator(i)` appends `i` without evaluating it. -/
theorem back_only_when_not_empty (h : Heap) (b : BasicBlock) (i : Nat) :
    b.terminator h ≠ Except.error Undefined.emptyAccess ∧
    b.terminatorConst h ≠ Except.error Undefined.emptyAccess ∧
    b.setTerminator h i ≠ Except.error Undefined.emptyAccess ∧
    (b.empty = true → b.back = Except.error Undefined.emptyAccess ∧
      b.terminator h = Except.ok 0 ∧ b.terminatorConst h = Except.ok 0 ∧
      b.setTerminator h i = Except.ok (h, b.push_back i)) ∧
    (b.empty = false → ∃ p, b.back = Except.ok p) := by
  have hterm : b.terminator h ≠ Except.error Undefined.emptyAccess := by
    rcases BasicBlock.terminator_cases h b with ⟨t, ht⟩ | ht <;> rw [ht] <;> simp
  refine ⟨hterm, hterm, ?_, ?_, ?_⟩
  · rcases BasicBlock.setTerminator_cases h b i with ⟨st, hs⟩ | hs <;> rw [hs] <;> simp
  · intro he
    have ht : b.terminator h = Except.ok 0 := by simp [BasicBlock.terminator, he]
    have hnil : b._instructions = [] := by simpa [BasicBlock.empty] using he
    exact ⟨by simp [BasicBlock.back, hnil], ht, ht, BasicBlock.setTerminator_append i ht⟩
  · intro he
    obtain ⟨p, hp, _⟩ := BasicBlock.back_of_not_empty he
    exact ⟨p, hp⟩

theorem back_only_when_not_empty_witness :
    sampleEmpty.back = Except.error Undefined.emptyAccess ∧
    sampleEmpty.terminator sampleHeap = Except.ok 0 ∧
    sampleEmpty.setTerminator sampleHeap 2
      = Except.ok (sampleHeap, sampleEmpty.push_back 2) :=
  match (back_only_when_not_empty sampleHeap sampleEmpty 2).2.2.2.1 rfl with
  | ⟨hb, ht, _, hs⟩ => ⟨hb, ht, hs⟩

/-! ## Clearing a block -/

theorem BasicBlock.clear_keeps_list {h h1 : Heap} {b b1 : BasicBlock}
    (hc : b.clear h = Except.ok (h1, b1)) :
    b1 = b ∧ b1.size = b.size ∧ b1.empty = b.empty := by
  unfold BasicBlock.clear at hc
  split at hc
  · cases hc
    exact ⟨rfl, rfl, rfl⟩
  · cases hc

/-- C14 (the code departs from the claim): `clear()` on `sampleBlock`, which
holds two live instructions, is defined and destroys both, but the block
still has size 2 and is not empty afterwards: it keeps the two dangling
pointers, and a second `clear()`, like the destructor, then deletes a
destroyed instruction again, which is undefined. -/
theorem clear_leaves_the_list :
    ∃ h1 b1, sampleBlock.clear sampleHeap = Except.ok (h1, b1) ∧
      b1.size = 2 ∧ b1.empty = false ∧ b1._instructions = [1, 2] ∧
      h1.read 1 = none ∧ h1.read 2 = none ∧
      b1.clear h1 = Except.error Undefined.invalidPointer ∧
      b1.destruct h1 = Except.error Undefined.invalidPointer :=
  ⟨_, _, rfl, rfl, rfl, rfl, rfl, rfl, rfl, rfl⟩

/-! ## What `setTerminator` stores -/

/-- C15 fails as stated: `sampleBlock` has a terminator (the `Bra` at address
2); `setTerminator` with the live `Ld` at address 3 is defined and leaves a
block whose last element is the new address 4, not 3: the block holds a
clone, and the instruction passed in is not in the block. -/
theorem setTerminator_replace_stores_clone :
    sampleBlock.terminator sampleHeap = Except.ok 2 ∧
    ∃ h1 b1, sampleBlock.setTerminator sampleHeap 3 = Except.ok (h1, b1) ∧
      b1.back = Except.ok 4 ∧ b1.back ≠ Except.ok 3 ∧ 3 ∉ b1._instructions ∧
      h1.read 3 = some sampleLd ∧ h1.read 4 = some sampleLd := by
  refine ⟨rfl, _, _, rfl, rfl, ?_, ?_, rfl, rfl⟩
  · intro he
    cases he
  · decide

/-- C15, amended: `setTerminator(i)` stores the passed instruction `i` itself
as the block's last element when the block has no terminator (append), so
that afterwards `back() == i` and `i` is in the block; when the block has a
terminator `t` and `i` is a live instruction other than `t` (replace), the
last element is instead a new clone of `i`, at an address different from `i`
and from every pointer the block held, and `i` itself is left live and
unchanged. -/
theorem setTerminator_stores_argument_or_clone (h : Heap) (b : BasicBlock) (i : Nat) :
    (b.terminator h = Except.ok 0 →
      ∃ b1, b.setTerminator h i = Except.ok (h, b1) ∧
        b1.back = Except.ok i ∧ i ∈ b1._instructions) ∧
    (∀ t o, b.terminator h = Except.ok t → t ≠ 0 → i ≠ t → h.read i = some o →
      ∃ h1 b1 q, b.setTerminator h i = Except.ok (h1, b1) ∧
        b1.back = Except.ok q ∧ q ≠ i ∧ h.read q = none ∧
        h1.read q = some o ∧ h1.read i = some o ∧
        ((∀ p ∈ b._instructions, p ≤ h.length) → q ∉ b._instructions)) := by
  constructor
  · intro ht
    exact ⟨_, BasicBlock.setTerminator_append i ht,
      by simp [BasicBlock.back, BasicBlock.push_back],
      by simp [BasicBlock.push_back]⟩
  · intro t o ht h0 hne ho
    obtain ⟨_, ot, hot, _⟩ := BasicBlock.terminator_ne_null ht h0
    have hdel := Heap.delete_of_read hot
    have hile := (Heap.read_le ho).2
    refine ⟨_, _, h.length + 1, BasicBlock.setTerminator_replace ht h0 hne ho, ?_, ?_, ?_,
      ?_, ?_, ?_⟩
    · simp [BasicBlock.back]
    · omega
    · cases hq : h.read (h.length + 1) with
      | none => rfl
      | some o1 =>
        have := (Heap.read_le hq).2
        omega
    · have e := Heap.read_append_right (h.set (t - 1) Cell.destroyed) [Cell.live o] 0
      simp only [List.length_set, Nat.add_zero] at e
      rw [e]
      rfl
    · rw [Heap.read_append_left _ _ (by simp only [List.length_set]; exact hile),
        Heap.read_delete hdel i]
      simp [hne, ho]
    · intro halloc hmem
      have := halloc _ hmem
      omega

theorem setTerminator_stores_argument_or_clone_witness :
    (∃ b1, sampleSource.setTerminator sampleHeap 2 = Except.ok (sampleHeap, b1) ∧
      b1.back = Except.ok 2 ∧ 2 ∈ b1._instructions) ∧
    (∃ h1 b1 q, sampleBlock.setTerminator sampleHeap 3 = Except.ok (h1, b1) ∧
      b1.back = Except.ok q ∧ q ≠ 3 ∧ h1.read q = some sampleLd) :=
  ⟨(setTerminator_stores_argument_or_clone sampleHeap sampleSource 2).1 rfl,
   match (setTerminator_stores_argument_or_clone sampleHeap sampleBlock 3).2 2 sampleLd rfl
      (by decide) (by decide) rfl with
    | ⟨h1, b1, q, hs, hb, hq, _, hr, _⟩ => ⟨h1, b1, q, hs, hb, hq, hr⟩⟩

/-! ## Copies keep the identifier and the owning function -/

theorem BasicBlock.cloneInto_fields {h h1 : Heap} {b b1 : BasicBlock} {ps : List Nat}
    (hc : BasicBlock.cloneInto h b ps = Except.ok (h1, b1)) :
    b1._id = b._id ∧ b1._function = b._function ∧ b1.base = b.base := by
  induction ps generalizing h b with
  | nil =>
    simp only [BasicBlock.cloneInto] at hc
    cases hc
    exact ⟨rfl, rfl, rfl⟩
  | cons p ps ih =>
    simp only [BasicBlock.cloneInto] at hc
    split at hc
    · have hi := ih hc
      simpa [BasicBlock.push_back] using hi
    · cases hc

theorem BasicBlock.assign_fields {h h2 : Heap} {blocks blocks2 : List BasicBlock}
    {this bb : Nat} {s : BasicBlock} (hs : blocks.get? bb = some s)
    (ha : BasicBlock.assign h blocks this bb = Except.ok (h2, blocks2)) :
    ∃ d2, blocks2.get? this = some d2 ∧ d2.id = s.id ∧ d2.function = s.function := by
  unfold BasicBlock.assign at ha
  split at ha
  · rename_i he
    cases ha
    exact ⟨s, he ▸ hs, rfl, rfl⟩
  · split at ha
    · rename_i d s1 hd hs1
      rw [hs] at hs1
      cases hs1
      split at ha
      · rename_i h1 d1 hcl
        dsimp only at ha
        split at ha
        · rename_i h3 d3 hci
          cases ha
          obtain ⟨hid, hfn, _⟩ := BasicBlock.cloneInto_fields hci
          have hlt : this < blocks.length := by
            simp only [List.get?_eq_getElem?] at hd
            exact (List.getElem?_eq_some_iff.mp hd).1
          refine ⟨d3, by simp [List.getElem?_set_self hlt], ?_, ?_⟩
          · simpa [BasicBlock.id] using hid
          · simpa [BasicBlock.function] using hfn
        · cases ha
      · cases ha
    · cases ha

/-- C17: a block produced by copy construction from `s`, or by copy
assignment from `s` (self-assignment included), reports the identifier and
the owning function of `s`; the copy constructor does produce a block when
the instructions of `s` are live, and the assignment does when moreover the
destination's instructions are live, pairwise distinct and none of them is an
instruction of `s`. -/
theorem copies_keep_id_and_function (h : Heap) (blocks : List BasicBlock) (this bb : Nat)
    (s : BasicBlock) (hs : blocks.get? bb = some s)
    (hsl : ∀ p ∈ s._instructions, ∃ o, h.read p = some o) :
    (∃ h1 c, BasicBlock.copyConstruct h s = Except.ok (h1, c) ∧
      c.id = s.id ∧ c.function = s.function) ∧
    (∀ h2 blocks2, BasicBlock.assign h blocks this bb = Except.ok (h2, blocks2) →
      ∃ d2, blocks2.get? this = some d2 ∧ d2.id = s.id ∧ d2.function = s.function) ∧
    (∀ d, blocks.get? this = some d → d._instructions.Nodup →
      (∀ p ∈ d._instructions, ∃ o, h.read p = some o) →
      (∀ p ∈ s._instructions, p ∉ d._instructions) →
      ∃ h2 blocks2 d2, BasicBlock.assign h blocks this bb = Except.ok (h2, blocks2) ∧
        blocks2.get? this = some d2 ∧ d2.id = s.id ∧ d2.function = s.function) := by
  refine ⟨⟨_, _, BasicBlock.copyConstruct_eq h s hsl, rfl, rfl⟩,
    fun h2 blocks2 ha => BasicBlock.assign_fields hs ha, ?_⟩
  intro d hd hnd hdl hdisj
  by_cases he : this = bb
  · have ha : BasicBlock.assign h blocks this bb = Except.ok (h, blocks) := by
      simp [BasicBlock.assign, he]
    obtain ⟨d2, h1, h2, h3⟩ := BasicBlock.assign_fields hs ha
    exact ⟨h, blocks, d2, ha, h1, h2, h3⟩
  · obtain ⟨h2, ha, _⟩ :=
      BasicBlock.assign_appends_clones h blocks this bb d s he hd hs hnd hdl hsl hdisj
    obtain ⟨d2, h1, h3, h4⟩ := BasicBlock.assign_fields hs ha
    exact ⟨h2, _, d2, ha, h1, h3, h4⟩

theorem sampleSource_live : ∀ p ∈ sampleSource._instructions, ∃ o, sampleHeap.read p = some o := by
  intro p hp
  simp only [sampleSource, List.mem_singleton] at hp
  subst hp
  exact ⟨sampleLd, rfl⟩

theorem copies_keep_id_and_function_witness :
    [sampleBlock, sampleSource].get? 1 = some sampleSource ∧
    (∀ p ∈ sampleSource._instructions, ∃ o, sampleHeap.read p = some o) ∧
    (∃ h1 c, BasicBlock.copyConstruct sampleHeap sampleSource = Except.ok (h1, c) ∧
      c.id = 5 ∧ c.function = 9) ∧
    (∃ h2 blocks2 d2, BasicBlock.assign sampleHeap [sampleBlock, sampleSource] 0 1
        = Except.ok (h2, blocks2) ∧
      blocks2.get? 0 = some d2 ∧ d2.id = 5 ∧ d2.function = 9) :=
  have ht := copies_keep_id_and_function sampleHeap [sampleBlock, sampleSource] 0 1
    sampleSource rfl sampleSource_live
  ⟨rfl, sampleSource_live, ht.1,
    ht.2.2 sampleBlock rfl (by decide) sampleHeap_live (by decide)⟩

/-- C18: self copy-assignment is the identity: for every store of blocks and
every address `b`, the assignment `b = b` returns with the heap unchanged (no
instruction destroyed, no clone created) and the store of blocks unchanged,
so `id()`, `function()`, `size()` and the instruction sequence of the block
are what they were. -/
theorem self_assign_is_identity (h : Heap) (blocks : List BasicBlock) (b : Nat) :
    BasicBlock.assign h blocks b b = Except.ok (h, blocks) ∧
    (∀ h2 blocks2 d, BasicBlock.assign h blocks b b = Except.ok (h2, blocks2) →
      blocks.get? b = some d →
      h2 = h ∧ ∃ d2, blocks2.get? b = some d2 ∧ d2.id = d.id ∧ d2.function = d.function ∧
        d2.size = d.size ∧ d2._instructions = d._instructions) := by
  have ha : BasicBlock.assign h blocks b b = Except.ok (h, blocks) := by
    simp [BasicBlock.assign]
  refine ⟨ha, ?_⟩
  intro h2 blocks2 d he hd
  rw [ha] at he
  cases he
  exact ⟨rfl, d, hd, rfl, rfl, rfl, rfl⟩

theorem self_assign_is_identity_witness :
    BasicBlock.assign sampleHeap [sampleBlock, sampleSource] 0 0
      = Except.ok (sampleHeap, [sampleBlock, sampleSource]) :=
  (self_assign_is_identity sampleHeap [sampleBlock, sampleSource] 0).1

end ir

end vanaheimr

/-! ## The name tests of the pass factory -/

namespace vanaheimr

namespace transforms

theorem runTests_length (tests : List (Bool × PassKind)) (st : Nat × PassStore) :
    (runTests tests st).2.length = st.2.length + (tests.map Prod.fst).count true := by
  induction tests generalizing st with
  | nil => simp [runTests]
  | cons t ts ih =>
    have e : runTests (t :: ts) st = runTests ts (assignNewIf t.1 t.2 st) := rfl
    rw [e, ih]
    cases ht : t.1 with
    | false => simp [assignNewIf, ht]
    | true =>
      simp only [assignNewIf, ht, PassStore.alloc, if_true, List.length_append,
        List.length_singleton, List.map_cons, List.count_cons_self]
      omega

theorem nameTests_count (name : String) : (nameTests name).count true ≤ 1 := by
  by_cases h : name ∈ recognizedNames
  · simp only [recognizedNames, List.mem_cons, List.mem_singleton, List.not_mem_nil,
      or_false] at h
    rcases h with h | h | h | h | h | h | h | h | h | h | h | h | h <;>
      subst h <;> decide
  · simp only [recognizedNames, List.mem_cons, List.mem_singleton, List.not_mem_nil,
      or_false, not_or] at h
    obtain ⟨h1, h2, h3, h4, h5, h6, h7, h8, h9, h10, h11, h12, h13⟩ := h
    simp [nameTests, h1, h2, h3, h4, h5, h6, h7, h8, h9, h10, h11, h12, h13]

/-- C16: for every name at most one of the seven name tests of `createPass`
succeeds; the call is those seven tests run in order, each successful test
constructing one object, so a call constructs at most one object: either
none, and the result is null with the store unchanged, or exactly one, and
the result is the address of that object, which no later test has
overwritten. -/
theorem createPass_at_most_one_test (name : String) (options : StringVector)
    (s : PassStore) :
    (nameTests name).count true ≤ 1 ∧
    createPass name options s
      = (if (runTests ((nameTests name).zip testKinds) (0, s)).1 ≠ 0 then
          ((runTests ((nameTests name).zip testKinds) (0, s)).1,
            (runTests ((nameTests name).zip testKinds) (0, s)).2.configure
              (runTests ((nameTests name).zip testKinds) (0, s)).1 options)
        else runTests ((nameTests name).zip testKinds) (0, s)) ∧
    (runTests ((nameTests name).zip testKinds) (0, s)).2.length
      = s.length + (nameTests name).count true ∧
    (createPass name options s).2.length ≤ s.length + 1 ∧
    (((createPass name options s).1 = 0 ∧ (createPass name options s).2 = s) ∨
      ∃ o, (createPass name options s).1 = s.length + 1 ∧
        (createPass name options s).2 = s ++ [o]) := by
  have hcases : ((createPass name options s).1 = 0 ∧ (createPass name options s).2 = s) ∨
      ∃ o, (createPass name options s).1 = s.length + 1 ∧
        (createPass name options s).2 = s ++ [o] := by
    by_cases h : name ∈ recognizedNames
    · obtain ⟨k, hk⟩ := documented_of_recognized name h
      right
      rw [createPass_of_documented name k options s hk]
      exact ⟨_, rfl, rfl⟩
    · left
      rw [createPass_of_unrecognized name options s h]
      exact ⟨rfl, rfl⟩
  refine ⟨nameTests_count name, rfl, ?_, ?_, hcases⟩
  · rw [runTests_length]
    simp [nameTests, testKinds]
  · rcases hcases with ⟨_, h2⟩ | ⟨o, _, h2⟩ <;> rw [h2] <;> simp

end transforms

end vanaheimr

/-! ## Defined calls keep the terminator invariant -/

namespace vanaheimr

namespace ir

theorem List.get?_of_mem_dropLast {l : List Nat} {p : Nat} (hp : p ∈ l.dropLast) :
    ∃ k, k + 1 < l.length ∧ l.get? k = some p := by
  obtain ⟨k, hk⟩ := List.mem_iff_get?.mp hp
  have hlt : k < l.dropLast.length := (BasicBlock.mem_of_get? hk).2
  simp only [List.length_dropLast] at hlt
  refine ⟨k, by omega, ?_⟩
  simp only [List.get?_eq_getElem?, List.dropLast_eq_take] at hk ⊢
  rw [List.getElem?_take_of_lt hlt] at hk
  exact hk

theorem AllLive.terminator_defined {h : Heap} {b : BasicBlock} (hl : AllLive h b) :
    ∃ t, b.terminator h = Except.ok t := by
  cases he : b.empty with
  | true => exact ⟨0, by simp [BasicBlock.terminator, he]⟩
  | false =>
    obtain ⟨p, hb, hlast⟩ := BasicBlock.back_of_not_empty he
    obtain ⟨o, ho⟩ := hl p (List.mem_of_getLast?_eq_some hlast)
    exact ⟨_, BasicBlock.terminator_of_back hb ho⟩

theorem AllLive.after_push_back {h : Heap} {b : BasicBlock} {i : Nat} {o : Instruction}
    (hl : AllLive h b) (hi : h.read i = some o) : AllLive h (b.push_back i) := by
  intro p hp
  simp only [BasicBlock.push_back, List.mem_append, List.mem_singleton] at hp
  rcases hp with hp | rfl
  · exact hl p hp
  · exact ⟨o, hi⟩

theorem NonLastAreNotBranches.of_invariant {h : Heap} {b : BasicBlock}
    (hl : AllLive h b) (hinv : TerminatorInvariant h b) : NonLastAreNotBranches h b := by
  intro k p hk hp
  obtain ⟨o, ho⟩ := hl p (BasicBlock.mem_of_get? hp).1
  refine ⟨o, ho, ?_⟩
  cases hbr : o.isBranch with
  | false => rfl
  | true =>
    have := hinv k p o hp ho hbr
    omega

/-- On a block of live instructions whose non-last elements are not control
transfers, `setTerminator` of a live instruction other than the block's
terminator is defined and leaves such a block again. -/
theorem AllLive.setTerminator_defined {h : Heap} {b : BasicBlock} {i : Nat} {o : Instruction}
    (hl : AllLive h b) (hj : NonLastAreNotBranches h b) (hi : h.read i = some o)
    (hne : b.terminator h ≠ Except.ok i) :
    ∃ h1 b1, b.setTerminator h i = Except.ok (h1, b1) ∧
      NonLastAreNotBranches h1 b1 ∧ AllLive h1 b1 := by
  obtain ⟨t, ht⟩ := AllLive.terminator_defined hl
  by_cases h0 : t = 0
  · subst h0
    exact ⟨h, b.push_back i, BasicBlock.setTerminator_append i ht,
      NonLastAreNotBranches.push_back i hj ht, AllLive.after_push_back hl hi⟩
  · have hit : i ≠ t := by
      intro e
      exact hne (e ▸ ht)
    obtain ⟨_, ot, hot, hbr⟩ := BasicBlock.terminator_ne_null ht h0
    have hs := BasicBlock.setTerminator_replace ht h0 hit hi
    refine ⟨_, _, hs, NonLastAreNotBranches.setTerminator hj hs, ?_⟩
    intro p hp
    simp only [List.mem_append, List.mem_singleton] at hp
    rcases hp with hp | rfl
    · obtain ⟨k, hk, hget⟩ := List.get?_of_mem_dropLast hp
      obtain ⟨o1, ho1, hbr1⟩ := hj k p hk hget
      have hpt : p ≠ t := by
        intro e
        rw [e, hot] at ho1
        cases ho1
        rw [hbr] at hbr1
        cases hbr1
      refine ⟨o1, ?_⟩
      rw [Heap.read_append_left _ _
        (by simp only [List.length_set]; exact (Heap.read_le ho1).2),
        Heap.read_delete (Heap.delete_of_read hot) p]
      simp [hpt, ho1]
    · refine ⟨o, ?_⟩
      have e := Heap.read_append_right (h.set (t - 1) Cell.destroyed) [Cell.live o] 0
      simp only [List.length_set, Nat.add_zero] at e
      rw [e]
      rfl

theorem AllLive.run_defined {calls : List Mutation} {st : Heap × BasicBlock}
    (hl : AllLive st.1 st.2) (hj : NonLastAreNotBranches st.1 st.2)
    (hg : pushBackWithoutTerminator st calls)
    (ha : argumentsLiveAndNotTerminator st calls) :
    ∃ st1, run st calls = Except.ok st1 ∧
      NonLastAreNotBranches st1.1 st1.2 ∧ AllLive st1.1 st1.2 := by
  induction calls generalizing st with
  | nil => exact ⟨st, rfl, hj, hl⟩
  | cons c cs ih =>
    simp only [pushBackWithoutTerminator] at hg
    simp only [argumentsLiveAndNotTerminator] at ha
    obtain ⟨hg1, hg2⟩ := hg
    obtain ⟨ha1, ha2⟩ := ha
    have hstep : ∃ st2, step st c = Except.ok st2 ∧
        NonLastAreNotBranches st2.1 st2.2 ∧ AllLive st2.1 st2.2 := by
      cases c with
      | push_back i =>
        obtain ⟨o, ho⟩ := ha1
        exact ⟨(st.1, st.2.push_back i), rfl,
          NonLastAreNotBranches.push_back i hj hg1, AllLive.after_push_back hl ho⟩
      | setTerminator i =>
        obtain ⟨⟨o, ho⟩, hne⟩ := ha1
        obtain ⟨h1, b1, hs, hj1, hl1⟩ := AllLive.setTerminator_defined hl hj ho hne
        exact ⟨(h1, b1), hs, hj1, hl1⟩
    obtain ⟨st2, hs2, hj2, hl2⟩ := hstep
    simp only [hs2] at hg2 ha2
    obtain ⟨st1, hr, hj1, hl1⟩ := ih hl2 hj2 hg2 ha2
    exact ⟨st1, by simp only [ir.run, hs2]; exact hr, hj1, hl1⟩

/-- C8, amended: starting from an empty block, every finite sequence of
`push_back` and `setTerminator` calls in which each argument is an
instruction that is live when it is passed, each `push_back` is made while
the block has no terminator, and no `setTerminator` is passed the terminator
the block has at that moment, is defined to its end, and the block it
reaches holds live instructions of which at most one is a control transfer,
and if one is present it is the last element. -/
theorem terminator_invariant_of_guarded_calls (h : Heap) (b : BasicBlock)
    (calls : List Mutation) (hb : b._instructions = [])
    (hg : pushBackWithoutTerminator (h, b) calls)
    (ha : argumentsLiveAndNotTerminator (h, b) calls) :
    ∃ h1 b1, run (h, b) calls = Except.ok (h1, b1) ∧
      TerminatorInvariant h1 b1 ∧ AllLive h1 b1 := by
  have hl : AllLive h b := by
    intro p hp
    simp [hb] at hp
  obtain ⟨st1, hr, hj1, hl1⟩ :=
    @AllLive.run_defined calls (h, b) hl (NonLastAreNotBranches.of_nil hb) hg ha
  exact ⟨st1.1, st1.2, hr, NonLastAreNotBranches.invariant hj1, hl1⟩

theorem terminator_invariant_of_guarded_calls_witness :
    sampleEmpty._instructions = [] ∧
    pushBackWithoutTerminator (sampleHeap, sampleEmpty)
      [Mutation.push_back 1, Mutation.setTerminator 2, Mutation.setTerminator 3] ∧
    argumentsLiveAndNotTerminator (sampleHeap, sampleEmpty)
      [Mutation.push_back 1, Mutation.setTerminator 2, Mutation.setTerminator 3] ∧
    ∃ h1 b1, run (sampleHeap, sampleEmpty)
        [Mutation.push_back 1, Mutation.setTerminator 2, Mutation.setTerminator 3]
        = Except.ok (h1, b1) ∧
      TerminatorInvariant h1 b1 ∧ AllLive h1 b1 :=
  have hg : pushBackWithoutTerminator (sampleHeap, sampleEmpty)
      [Mutation.push_back 1, Mutation.setTerminator 2, Mutation.setTerminator 3] :=
    ⟨rfl, trivial, trivial, trivial⟩
  have ha : argumentsLiveAndNotTerminator (sampleHeap, sampleEmpty)
      [Mutation.push_back 1, Mutation.setTerminator 2, Mutation.setTerminator 3] :=
    ⟨⟨sampleAdd, rfl⟩,
     ⟨⟨sampleBra, rfl⟩, fun e => absurd (Except.ok.inj e) (by decide)⟩,
     ⟨⟨sampleLd, rfl⟩, fun e => absurd (Except.ok.inj e) (by decide)⟩,
     trivial⟩
  ⟨rfl, hg, ha,
    terminator_invariant_of_guarded_calls sampleHeap sampleEmpty
      [Mutation.push_back 1, Mutation.setTerminator 2, Mutation.setTerminator 3] rfl hg ha⟩

/-- C12 fails as stated: `sampleBlock` holds live instructions and its only
control transfer, the `Bra` at address 2, is last; `setTerminator` with that
same live instruction is undefined, so there is no block after the call and
none that has the property. -/
theorem setTerminator_own_terminator_leaves_no_block :
    AllLive sampleHeap sampleBlock ∧ TerminatorInvariant sampleHeap sampleBlock ∧
    sampleHeap.read 2 = some sampleBra ∧
    sampleBlock.terminator sampleHeap = Except.ok 2 ∧
    ¬ ∃ h1 b1, sampleBlock.setTerminator sampleHeap 2 = Except.ok (h1, b1) ∧
      TerminatorInvariant h1 b1 := by
  refine ⟨sampleHeap_live, sampleBlock_invariant, rfl, rfl, ?_⟩
  rintro ⟨h1, b1, he, _⟩
  have hu : sampleBlock.setTerminator sampleHeap 2
      = Except.error Undefined.invalidPointer := rfl
  rw [hu] at he
  cases he

/-- C12, amended: `setTerminator` preserves the single-terminator,
last-position invariant on the calls it is defined for: for every block of
live instructions in which at most one instruction is a control transfer and
any such instruction is last, and for every live instruction `i` other than
the block's terminator, `setTerminator(i)` is defined and the block after it
again holds live instructions, has at most one control transfer, and any
such instruction is last. -/
theorem setTerminator_preserves_invariant (h : Heap) (b : BasicBlock) (i : Nat)
    (o : Instruction) (hl : AllLive h b) (hinv : TerminatorInvariant h b)
    (hi : h.read i = some o) (hne : b.terminator h ≠ Except.ok i) :
    ∃ h1 b1, b.setTerminator h i = Except.ok (h1, b1) ∧
      TerminatorInvariant h1 b1 ∧ AllLive h1 b1 := by
  obtain ⟨h1, b1, hs, hj1, hl1⟩ :=
    AllLive.setTerminator_defined hl (NonLastAreNotBranches.of_invariant hl hinv) hi hne
  exact ⟨h1, b1, hs, NonLastAreNotBranches.invariant hj1, hl1⟩

theorem setTerminator_preserves_invariant_witness :
    AllLive sampleHeap sampleBlock ∧ TerminatorInvariant sampleHeap sampleBlock ∧
    sampleHeap.read 3 = some sampleLd ∧
    sampleBlock.terminator sampleHeap ≠ Except.ok 3 ∧
    ∃ h1 b1, sampleBlock.setTerminator sampleHeap 3 = Except.ok (h1, b1) ∧
      TerminatorInvariant h1 b1 ∧ AllLive h1 b1 :=
  have hne : sampleBlock.terminator sampleHeap ≠ Except.ok 3 :=
    fun e => absurd (Except.ok.inj e) (by decide)
  ⟨sampleHeap_live, sampleBlock_invariant, rfl, hne,
    setTerminator_preserves_invariant sampleHeap sampleBlock 3 sampleLd
      sampleHeap_live sampleBlock_invariant rfl hne⟩

end ir

end vanaheimr
